import Mathlib

/-!
Verification of the xlmd transcoder core (Go implementation).

The development shallowly embeds the pure logic of:
* `toColName` and `WriteExcel` from pkg/excel/writer.go,
* `colRefToIndex` and `ReadExcel` from the excel reader file,
* `ToMarkdown` from pkg/markdown/writer.go,
* `ReadMarkdown` and `parseTable` from go/cmd/root.go.

File-system, zip and XML (de)serialisation are boundaries: the writer's XML
structures are consumed directly by the reader's decoding logic, which mirrors
a faithful zip/XML round trip.  Go strings are modelled as Lean `String`
(lists of characters); the inputs of interest are ASCII so byte/rune indexing
coincide.
-/

namespace Xlmd

/-! ### Go standard-library string primitives -/

/-- Whitespace as accepted by Go `unicode.IsSpace` (used by `strings.TrimSpace`):
`\t \n \v \f \r space U+0085 U+00A0 U+1680 U+2000..U+200A U+2028 U+2029 U+202F
U+205F U+3000`. -/
def goSpace (c : Char) : Bool :=
  c.toNat = 0x20 || c.toNat = 0x09 || c.toNat = 0x0a || c.toNat = 0x0b ||
  c.toNat = 0x0c || c.toNat = 0x0d || c.toNat = 0x85 || c.toNat = 0xa0 ||
  c.toNat = 0x1680 || (0x2000 ≤ c.toNat && c.toNat ≤ 0x200a) ||
  c.toNat = 0x2028 || c.toNat = 0x2029 || c.toNat = 0x202f ||
  c.toNat = 0x205f || c.toNat = 0x3000

/-- Whitespace as matched by the character class `\s` of Go `regexp`
(RE2 Perl class): exactly `[\t\n\f\r ]`. -/
def reSpace (c : Char) : Bool :=
  c.toNat = 0x09 || c.toNat = 0x0a || c.toNat = 0x0c || c.toNat = 0x0d ||
  c.toNat = 0x20

/-- Left part of `strings.TrimSpace`. -/
def trimLeftLC (l : List Char) : List Char := l.dropWhile goSpace

/-- Right part of `strings.TrimSpace`. -/
def trimRightLC (l : List Char) : List Char := (l.reverse.dropWhile goSpace).reverse

/-- Character-list model of `strings.TrimSpace`. -/
def trimLC (l : List Char) : List Char := trimRightLC (trimLeftLC l)

/-- Model of Go `strings.TrimSpace`. -/
def goTrim (s : String) : String := ⟨trimLC s.data⟩

/-- Character-list model of `strings.Split` with a single-character separator:
splitting always yields one more piece than there are separators. -/
def splitLC (sep : Char) : List Char → List (List Char)
  | [] => [[]]
  | a :: rest =>
    let r := splitLC sep rest
    if a = sep then [] :: r
    else (a :: r.headD []) :: r.tail

/-- Model of Go `strings.Split s sep` for a one-character `sep`. -/
def strSplit (sep : Char) (s : String) : List String :=
  (splitLC sep s.data).map (fun l => ⟨l⟩)

/-- Model of Go `strings.Join`. -/
def strJoin (sep : String) : List String → String
  | [] => ""
  | [x] => x
  | x :: y :: rest => x ++ sep ++ strJoin sep (y :: rest)

/-- Model of Go `strings.Repeat`. -/
def strRep (s : String) : Nat → String
  | 0 => ""
  | n + 1 => s ++ strRep s n

/-- Model of Go `strings.Contains s c` for a one-character pattern. -/
def containsCh (s : String) (c : Char) : Bool := s.data.any (fun a => a = c)

/-- Model of Go `strings.HasPrefix`. -/
def hasPref (p s : String) : Bool := p.data.isPrefixOf s.data

/-- Model of Go `strings.HasSuffix`. -/
def hasSuff (p s : String) : Bool := p.data.isSuffixOf s.data

/-! ### Decimal numerals: `strconv.Itoa` and `strconv.Atoi` -/

/-- A decimal digit character. -/
def digitChar (d : Nat) : Char := Char.ofNat (48 + d)

/-- Decimal digit list of a natural number, most significant first
(the digit expansion produced by `strconv.Itoa` on non-negative input). -/
def natDigits (n : Nat) : List Char :=
  if h : n < 10 then [digitChar (n % 10)]
  else natDigits (n / 10) ++ [digitChar (n % 10)]
  decreasing_by exact Nat.div_lt_self (by omega) (by omega)

/-- Model of Go `strconv.Itoa` on non-negative input. -/
def itoa (n : Nat) : String := ⟨natDigits n⟩

/-- Recognition of a decimal digit character. -/
def isDigitCh (c : Char) : Bool := 48 ≤ c.toNat && c.toNat ≤ 57

/-- Value of a decimal digit string (most significant first). -/
def digitsVal (cs : List Char) : Nat := cs.foldl (fun a c => a * 10 + (c.toNat - 48)) 0

/-- Model of Go `strconv.Atoi`: optional sign followed by at least one decimal
digit; anything else is an error (`none`).  `strconv.Atoi` additionally fails
on 64-bit overflow; that case is not modelled — at the single call site any
such huge index is out of range of the shared-string table and produces the
same result either way. -/
def atoi (s : String) : Option Int :=
  match s.data with
  | [] => none
  | c :: rest =>
    if c = '+' then
      if rest ≠ [] ∧ rest.all isDigitCh then some (digitsVal rest) else none
    else if c = '-' then
      if rest ≠ [] ∧ rest.all isDigitCh then some (-(digitsVal rest : Int)) else none
    else
      if (c :: rest).all isDigitCh then some (digitsVal (c :: rest)) else none

/-! ### Column-address codec

`toColName` is from pkg/excel/writer.go (lines 61–71); `colRefToIndex` is from
the reader (lines 14–31). -/

/-- Upper-case letter test, as in the reader's scan `char >= 'A' && char <= 'Z'`. -/
def upperAZ (c : Char) : Bool := 65 ≤ c.toNat && c.toNat ≤ 90

/-- The letter `'A' + d` written by one iteration of the `toColName` loop. -/
def colLetter (d : Nat) : Char := Char.ofNat (65 + d)

/-- Core loop of `toColName` on a non-negative column: emit `'A' + col%26`,
continue with `col/26 - 1`, stop when that would go negative (`col < 26`);
letters produced later are prepended. -/
def toColNameN (col : Nat) : List Char :=
  if h : col < 26 then [colLetter (col % 26)]
  else toColNameN (col / 26 - 1) ++ [colLetter (col % 26)]
  decreasing_by
    have h1 : col / 26 < col := Nat.div_lt_self (by omega) (by omega)
    omega

/-- Model of `toColName`: negative input yields the empty string. -/
def toColName (col : Int) : String :=
  if col < 0 then "" else ⟨toColNameN col.toNat⟩

/-- Valuation of a letter run, mirroring the reader's loop
`index += (char - 'A' + 1) * 26^(len-i-1)`: the character at position `i`
carries power `len - i - 1`, i.e. the length of the remaining suffix.
(`math.Pow` is exact on this range.) -/
def refPowerVal : List Char → Nat
  | [] => 0
  | c :: rest => (c.toNat - 65 + 1) * 26 ^ rest.length + refPowerVal rest

/-- Model of `colRefToIndex`: value of the leading `A`–`Z` run minus one. -/
def colRefToIndex (ref : String) : Int :=
  (refPowerVal (ref.data.takeWhile upperAZ) : Int) - 1

/-! ### Codec lemmas -/

theorem colLetter_toNat : ∀ d : Nat, d < 26 → (colLetter d).toNat = 65 + d := by decide

theorem colLetter_upper : ∀ d : Nat, d < 26 → upperAZ (colLetter d) = true := by decide

theorem refPowerVal_append_last (cs : List Char) (c : Char) :
    refPowerVal (cs ++ [c]) = 26 * refPowerVal cs + (c.toNat - 65 + 1) := by
  induction cs with
  | nil => simp [refPowerVal]
  | cons a rest ih =>
      have e1 : refPowerVal ((a :: rest) ++ [c])
          = (a.toNat - 65 + 1) * 26 ^ (rest ++ [c]).length + refPowerVal (rest ++ [c]) := rfl
      have e2 : refPowerVal (a :: rest)
          = (a.toNat - 65 + 1) * 26 ^ rest.length + refPowerVal rest := rfl
      have hlen : (rest ++ [c]).length = rest.length + 1 := by simp
      rw [e1, ih, e2, hlen, pow_succ]
      ring

theorem toColNameN_all_upper (j : Nat) : ∀ c ∈ toColNameN j, upperAZ c = true := by
  induction j using toColNameN.induct with
  | case1 col h =>
      intro c hc
      rw [toColNameN] at hc
      simp only [h, dif_pos] at hc
      simp only [List.mem_singleton] at hc
      subst hc
      exact colLetter_upper _ (Nat.mod_lt _ (by omega))
  | case2 col h ih =>
      intro c hc
      rw [toColNameN] at hc
      simp only [h, dif_neg, not_false_iff] at hc
      rcases List.mem_append.mp hc with h1 | h1
      · exact ih c h1
      · simp only [List.mem_singleton] at h1
        subst h1
        exact colLetter_upper _ (Nat.mod_lt _ (by omega))

theorem refPowerVal_toColNameN (j : Nat) : refPowerVal (toColNameN j) = j + 1 := by
  induction j using toColNameN.induct with
  | case1 col h =>
      rw [toColNameN]
      simp only [h, dif_pos]
      have hm : col % 26 = col := Nat.mod_eq_of_lt h
      have hL2 : (colLetter col).toNat = 65 + col := colLetter_toNat col h
      simp only [refPowerVal, List.length_nil, pow_zero, mul_one, hm, hL2]
      omega
  | case2 col h ih =>
      rw [toColNameN]
      simp only [h, dif_neg, not_false_iff]
      rw [refPowerVal_append_last, ih]
      have h26 : 26 ≤ col := by omega
      have hd : 1 ≤ col / 26 := (Nat.one_le_div_iff (by omega)).mpr h26
      have hmod := Nat.div_add_mod col 26
      have hL : (colLetter (col % 26)).toNat = 65 + col % 26 :=
        colLetter_toNat _ (Nat.mod_lt _ (by omega))
      rw [hL]
      omega

theorem takeWhile_append_all (p : Char → Bool) (l1 l2 : List Char)
    (h1 : ∀ c ∈ l1, p c = true) (h2 : ∀ c, l2.head? = some c → p c = false) :
    (l1 ++ l2).takeWhile p = l1 := by
  induction l1 with
  | nil =>
      cases l2 with
      | nil => simp
      | cons b bs =>
          simp only [List.nil_append, List.takeWhile]
          rw [h2 b rfl]
  | cons a rest ih =>
      simp only [List.cons_append, List.takeWhile]
      rw [h1 a (by simp)]
      simp only [List.cons.injEq, true_and]
      exact ih (fun c hc => h1 c (by simp [hc]))

theorem natDigits_ne_nil (n : Nat) : natDigits n ≠ [] := by
  rw [natDigits]
  split <;> simp

theorem digitChar_not_upper : ∀ d : Nat, d < 10 → upperAZ (digitChar d) = false := by
  decide

theorem natDigits_not_upper (n : Nat) : ∀ c ∈ natDigits n, upperAZ c = false := by
  induction n using natDigits.induct with
  | case1 n h =>
      intro c hc
      rw [natDigits] at hc
      simp only [h, dif_pos, List.mem_singleton] at hc
      subst hc
      exact digitChar_not_upper _ (Nat.mod_lt _ (by omega))
  | case2 n h ih =>
      intro c hc
      rw [natDigits] at hc
      simp only [h, dif_neg, not_false_iff] at hc
      rcases List.mem_append.mp hc with h1 | h1
      · exact ih c h1
      · simp only [List.mem_singleton] at h1
        subst h1
        exact digitChar_not_upper _ (Nat.mod_lt _ (by omega))

theorem data_append (s t : String) : (s ++ t).data = s.data ++ t.data := rfl

theorem data_mk (l : List Char) : (String.mk l).data = l := rfl

/-- Round trip of the column codec through a full cell reference: the digits of
the row number stop the letter scan exactly at the end of the column letters. -/
theorem colRefToIndex_toColName (j rowNum : Nat) :
    colRefToIndex (toColName (j : Int) ++ itoa rowNum) = (j : Int) := by
  have hnn : ¬((j : Int) < 0) := by omega
  rw [colRefToIndex, toColName]
  simp only [hnn, if_false]
  have hdata : ((⟨toColNameN (Int.toNat (j : Int))⟩ : String) ++ itoa rowNum).data
      = toColNameN j ++ natDigits rowNum := by
    rw [data_append]
    simp [itoa, Int.toNat_natCast]
  rw [hdata]
  rw [takeWhile_append_all upperAZ _ _ (toColNameN_all_upper j)
    (by
      intro c hc
      have hm : c ∈ natDigits rowNum := by
        cases hd : natDigits rowNum with
        | nil => exact absurd hd (natDigits_ne_nil rowNum)
        | cons b bs =>
            rw [hd] at hc
            simp only [List.head?] at hc
            cases hc
            simp [hd]
      exact natDigits_not_upper rowNum c hm)]
  rw [refPowerVal_toColNameN]
  omega

/-- C2: the column-address codec is a bijection on the tested range: for every
non-negative integer `i` in `[0, 1000]`, `colRefToIndex (toColName i ++ "1") = i`,
where `toColName` maps `0` to `"A"`, `25` to `"Z"` and `26` to `"AA"` under the
bijective base-26 scheme with no zero digit. -/
theorem C2_column_codec_bijection :
    toColName 0 = "A" ∧ toColName 25 = "Z" ∧ toColName 26 = "AA" ∧
    ∀ i : Nat, i ≤ 1000 → colRefToIndex (toColName (i : Int) ++ "1") = (i : Int) := by
  refine ⟨by simp [toColName, toColNameN, colLetter],
    by simp [toColName, toColNameN, colLetter],
    by simp [toColName, toColNameN, colLetter], fun i _ => ?_⟩
  have h1 : ("1" : String) = itoa 1 := by simp [itoa, natDigits, digitChar]
  rw [h1]
  exact colRefToIndex_toColName i 1

/-- Witness for C2 at the concrete input 26 (column letters "AA"). -/
theorem C2_column_codec_bijection_witness :
    (26 : Nat) ≤ 1000 ∧ colRefToIndex (toColName ((26 : Nat) : Int) ++ "1") = ((26 : Nat) : Int) :=
  ⟨by decide, C2_column_codec_bijection.2.2.2 26 (by decide)⟩

/-! ### The tabular data model and the worksheet XML structures

`SheetData`, `CellXML`, `RowXML` and `SST` mirror the structures of
pkg/excel/writer.go; the reader consumes the same cell shape
(`Ref`/`Type`/`Val` ↦ `r`/`t`/`v`). -/

structure SheetData where
  name : String
  rows : List (List String)
deriving DecidableEq, Repr, Inhabited

structure CellXML where
  r : String
  t : String
  v : String
deriving DecidableEq, Repr, Inhabited

structure RowXML where
  r : Nat
  cells : List CellXML
deriving DecidableEq, Repr, Inhabited

structure SSTXML where
  count : Nat
  uniqueCount : Nat
  si : List String
deriving DecidableEq, Repr, Inhabited

/-! ### Package writer (`WriteExcel`, pkg/excel/writer.go lines 74–265) -/

/-- One step of the shared-string collection loop: skip empty values, skip
values already collected, otherwise append.  The Go code pairs the list with a
`stringIndexMap` whose keys are exactly the collected values and whose value
for a key is its position in the list; list membership models the map test. -/
def sstInsert (acc : List String) (v : String) : List String :=
  if v = "" then acc
  else if v ∈ acc then acc
  else acc ++ [v]

/-- The shared-string table built by `WriteExcel`: a single pass over all
sheets, rows and cells. -/
def collectSST (sheets : List SheetData) : List String :=
  sheets.foldl (fun acc sheet =>
    sheet.rows.foldl (fun acc2 row => row.foldl sstInsert acc2) acc) []

/-- All cell values of a sheet list in the writer's scan order. -/
def allVals (sheets : List SheetData) : List String :=
  (sheets.map (fun s => s.rows.flatten)).flatten

/-- The writer's per-row scan
`maxColIndex := -1; for j, val := range row { if val != "" { maxColIndex = j } }`,
with the loop index made explicit. -/
def maxColGo (j : Nat) (m : Int) : List String → Int
  | [] => m
  | v :: rest => maxColGo (j + 1) (if v ≠ "" then (j : Int) else m) rest

/-- Highest column index of a row holding a non-empty value (`-1` if none). -/
def maxColIndexW (row : List String) : Int := maxColGo 0 (-1) row

/-- The cell list the writer emits for one row: indices `0..maxColIndex`,
empty values omitted, every cell typed `"s"` with its shared-string index
(`stringIndexMap[v]`, i.e. the position of the first occurrence of `v` in the
table) as payload. -/
def cellsForRow (sst : List String) (rowNum : Nat) (row : List String) : List CellXML :=
  (List.range (maxColIndexW row + 1).toNat).filterMap (fun cIdx =>
    let cellValue := row.getD cIdx ""
    if cellValue = "" then none
    else some { r := toColName (cIdx : Int) ++ itoa rowNum, t := "s",
                v := itoa (sst.indexOf cellValue) })

/-- The writer's row loop: 1-based row numbers in sheet order, rows with no
cells omitted. -/
def sheetRowsAux (sst : List String) : Nat → List (List String) → List RowXML
  | _, [] => []
  | rowNum, row :: rest =>
    let cells := cellsForRow sst rowNum row
    let restX := sheetRowsAux sst (rowNum + 1) rest
    if cells = [] then restX else { r := rowNum, cells := cells } :: restX

/-- Worksheet rows emitted for one sheet (row numbering starts at 1). -/
def sheetRowsXML (sst : List String) (rows : List (List String)) : List RowXML :=
  sheetRowsAux sst 1 rows

/-- The serialized shared-string part: count and uniqueCount both the table
size. -/
def sstXML (sst : List String) : SSTXML :=
  { count := sst.length, uniqueCount := sst.length, si := sst }

/-- The pure content of the package written by `WriteExcel`: the shared-string
part and one worksheet row list per sheet. -/
def writeExcelPure (sheets : List SheetData) : SSTXML × List (List RowXML) :=
  let sst := collectSST sheets
  (sstXML sst, sheets.map (fun s => sheetRowsXML sst s.rows))

/-! ### Package reader (`ReadExcel`, reader lines 33–131) -/

/-- Resolution of a cell value: type `"s"` goes through the shared-string
table, out-of-range or non-numeric indices resolve to the empty string, other
types pass the literal value through. -/
def resolveVal (sst : List String) (t v : String) : String :=
  if t = "s" then
    match atoi v with
    | some idx => if 0 ≤ idx ∧ idx < (sst.length : Int) then sst.getD idx.toNat "" else ""
    | none => ""
  else v

/-- Decoding of one worksheet row: compute the maximum referenced column
(starting from 0), allocate a dense row of empty strings, and place each
resolved value at its decoded column.  A negative decoded column would make
the Go slice write panic; that failure is modelled as `none`. -/
def readRow (sst : List String) (cells : List CellXML) : Option (List String) :=
  if cells.all (fun c => 0 ≤ colRefToIndex c.r) then
    some (cells.foldl
      (fun acc c => acc.set (colRefToIndex c.r).toNat (resolveVal sst c.t c.v))
      (List.replicate
        ((cells.foldl
          (fun m c => if colRefToIndex c.r > m then colRefToIndex c.r else m) 0) + 1).toNat ""))
  else none

/-- Decoding of a worksheet's row list: rows with zero cells are skipped. -/
def readSheetRows (sst : List String) : List RowXML → Option (List (List String))
  | [] => some []
  | r :: rest =>
    if r.cells = [] then readSheetRows sst rest
    else do
      let v ← readRow sst r.cells
      let vs ← readSheetRows sst rest
      pure (v :: vs)

/-- Decoding of all worksheet parts of a package against its shared-string
table. -/
def readExcelPure (sst : List String) (wss : List (List RowXML)) :
    Option (List (List (List String))) :=
  wss.mapM (readSheetRows sst)

/-! ### Shared-string table characterization -/

/-- First-occurrence deduplication: keep each value's first occurrence, drop
later repeats. -/
def dedupFirst : List String → List String
  | [] => []
  | v :: rest => v :: dedupFirst (rest.filter (fun w => w ≠ v))
  termination_by l => l.length
  decreasing_by
    simp only [List.length_cons]
    exact Nat.lt_succ_of_le (List.length_filter_le _ _)

theorem mem_dedupFirst (a : String) (l : List String) : a ∈ dedupFirst l ↔ a ∈ l := by
  induction l using dedupFirst.induct with
  | case1 => simp [dedupFirst]
  | case2 v rest ih =>
      rw [dedupFirst]
      simp only [List.mem_cons, ih, List.mem_filter]
      constructor
      · rintro (h | ⟨h1, _⟩)
        · exact Or.inl h
        · exact Or.inr h1
      · rintro (h | h1)
        · exact Or.inl h
        · by_cases hv : a = v
          · exact Or.inl hv
          · exact Or.inr ⟨h1, by simp [hv]⟩

theorem nodup_dedupFirst (l : List String) : (dedupFirst l).Nodup := by
  induction l using dedupFirst.induct with
  | case1 => simp [dedupFirst]
  | case2 v rest ih =>
      rw [dedupFirst]
      refine List.nodup_cons.mpr ⟨?_, ih⟩
      intro hmem
      have := (mem_dedupFirst v _).mp hmem
      simp at this

theorem collectSST_eq_foldl (sheets : List SheetData) :
    collectSST sheets = (allVals sheets).foldl sstInsert [] := by
  rw [collectSST, allVals, List.foldl_flatten, List.foldl_map]
  have hfun : (fun (acc : List String) (s : SheetData) => s.rows.flatten.foldl sstInsert acc)
      = fun acc s => s.rows.foldl (fun acc2 row => row.foldl sstInsert acc2) acc := by
    funext acc s
    rw [List.foldl_flatten]
  rw [hfun]

theorem foldl_sstInsert_eq (l : List String) : ∀ acc : List String,
    l.foldl sstInsert acc
      = acc ++ dedupFirst (l.filter (fun w => w ≠ "" ∧ w ∉ acc)) := by
  induction l with
  | nil => intro acc; simp [dedupFirst]
  | cons v rest ih =>
      intro acc
      simp only [List.foldl_cons, List.filter_cons]
      by_cases hv : v = ""
      · subst hv
        have h1 : sstInsert acc "" = acc := by simp [sstInsert]
        have h2 : (decide (("" : String) ≠ "" ∧ "" ∉ acc)) = false := by simp
        rw [h1, h2]
        simp only [Bool.false_eq_true, if_false]
        exact ih acc
      · by_cases hm : v ∈ acc
        · have h1 : sstInsert acc v = acc := by simp [sstInsert, hv, hm]
          have h2 : (decide (v ≠ "" ∧ v ∉ acc)) = false := by simp [hm]
          rw [h1, h2]
          simp only [Bool.false_eq_true, if_false]
          exact ih acc
        · have h1 : sstInsert acc v = acc ++ [v] := by simp [sstInsert, hv, hm]
          have h2 : (decide (v ≠ "" ∧ v ∉ acc)) = true := by simp [hv, hm]
          rw [h1, h2]
          simp only [if_true]
          rw [ih (acc ++ [v])]
          rw [dedupFirst]
          have h3 : (rest.filter (fun w => w ≠ "" ∧ w ∉ acc)).filter (fun w => w ≠ v)
              = rest.filter (fun w => w ≠ "" ∧ w ∉ acc ++ [v]) := by
            rw [List.filter_filter]
            apply List.filter_congr
            intro w _
            have : (w ≠ "" ∧ w ∉ acc ++ [v]) ↔ ((w ≠ v) ∧ (w ≠ "" ∧ w ∉ acc)) := by
              simp only [List.mem_append, List.mem_singleton]
              constructor
              · rintro ⟨hw1, hw2⟩
                exact ⟨fun he => hw2 (Or.inr he), hw1, fun he => hw2 (Or.inl he)⟩
              · rintro ⟨hw0, hw1, hw2⟩
                exact ⟨hw1, fun he => by rcases he with he | he; exact hw2 he; exact hw0 he⟩
            rw [show (decide (w ≠ "" ∧ w ∉ acc ++ [v])) = decide ((w ≠ v) ∧ (w ≠ "" ∧ w ∉ acc))
              from decide_eq_decide.mpr this]
            rw [Bool.and_eq_decide]
          rw [h3]
          simp

theorem collectSST_characterization (sheets : List SheetData) :
    collectSST sheets = dedupFirst ((allVals sheets).filter (fun w => w ≠ "")) := by
  rw [collectSST_eq_foldl, foldl_sstInsert_eq]
  have : (allVals sheets).filter (fun w => w ≠ "" ∧ w ∉ ([] : List String))
      = (allVals sheets).filter (fun w => w ≠ "") := by
    apply List.filter_congr
    intro w _
    simp
  rw [this]
  simp

theorem collectSST_nodup (sheets : List SheetData) : (collectSST sheets).Nodup := by
  rw [collectSST_characterization]
  exact nodup_dedupFirst _

theorem mem_collectSST (sheets : List SheetData) (v : String) :
    v ∈ collectSST sheets ↔ (v ≠ "" ∧ v ∈ allVals sheets) := by
  rw [collectSST_characterization, mem_dedupFirst, List.mem_filter]
  simp only [decide_eq_true_eq]
  tauto

/-- The shared-string table resolves its own indices: for any collected value,
its first-occurrence index is in range and looks up to the value itself. -/
theorem collectSST_indexOf_resolve (sheets : List SheetData) (v : String)
    (h : v ∈ collectSST sheets) :
    (collectSST sheets).indexOf v < (collectSST sheets).length ∧
    (collectSST sheets).getD ((collectSST sheets).indexOf v) "" = v := by
  have hlt : (collectSST sheets).indexOf v < (collectSST sheets).length :=
    List.indexOf_lt_length.mpr h
  refine ⟨hlt, ?_⟩
  rw [List.getD_eq_getElem _ _ hlt]
  exact List.getElem_indexOf hlt

/-- C7: the shared-string table contains exactly the distinct non-empty cell
values, each once, in first-occurrence scan order; the emitted sst declares
count and uniqueCount equal to the table size; rebuilding from equal input
yields the identical list and index assignments. -/
theorem C7_shared_string_table (sheets : List SheetData) :
    collectSST sheets = dedupFirst ((allVals sheets).filter (fun w => w ≠ "")) ∧
    (collectSST sheets).Nodup ∧
    (∀ v, v ∈ collectSST sheets ↔ (v ≠ "" ∧ v ∈ allVals sheets)) ∧
    (writeExcelPure sheets).1.count = (collectSST sheets).length ∧
    (writeExcelPure sheets).1.uniqueCount = (collectSST sheets).length ∧
    (∀ sheets2, sheets2 = sheets →
      collectSST sheets2 = collectSST sheets ∧
      ∀ v, (collectSST sheets2).indexOf v = (collectSST sheets).indexOf v) := by
  refine ⟨collectSST_characterization sheets, collectSST_nodup sheets,
    mem_collectSST sheets, rfl, rfl, ?_⟩
  rintro sheets2 rfl
  exact ⟨rfl, fun _ => rfl⟩

/-- Witness for C7 at a concrete sheet list (the rebuild conjunct has a
hypothesis, discharged by reflexivity). -/
theorem C7_shared_string_table_witness :
    collectSST [⟨"S", [["a", "b", "a", ""]]⟩]
        = collectSST [⟨"S", [["a", "b", "a", ""]]⟩] ∧
    ∀ v, (collectSST [⟨"S", [["a", "b", "a", ""]]⟩]).indexOf v
        = (collectSST [⟨"S", [["a", "b", "a", ""]]⟩]).indexOf v :=
  (C7_shared_string_table [⟨"S", [["a", "b", "a", ""]]⟩]).2.2.2.2.2
    [⟨"S", [["a", "b", "a", ""]]⟩] rfl

/-! ### Decimal round trip -/

theorem digitChar_toNat : ∀ d : Nat, d < 10 → (digitChar d).toNat = 48 + d := by decide

theorem digitChar_isDigit : ∀ d : Nat, d < 10 → isDigitCh (digitChar d) = true := by decide

theorem digitsVal_append (cs : List Char) (c : Char) :
    digitsVal (cs ++ [c]) = digitsVal cs * 10 + (c.toNat - 48) := by
  simp [digitsVal, List.foldl_append]

theorem digitsVal_natDigits (n : Nat) : digitsVal (natDigits n) = n := by
  induction n using natDigits.induct with
  | case1 n h =>
      rw [natDigits]
      simp only [h, dif_pos]
      have := digitChar_toNat (n % 10) (Nat.mod_lt _ (by omega))
      simp only [digitsVal, List.foldl_cons, List.foldl_nil, this]
      omega
  | case2 n h ih =>
      rw [natDigits]
      simp only [h, dif_neg, not_false_iff]
      rw [digitsVal_append, ih]
      have := digitChar_toNat (n % 10) (Nat.mod_lt _ (by omega))
      rw [this]
      omega

theorem natDigits_all_digit (n : Nat) : ∀ c ∈ natDigits n, isDigitCh c = true := by
  induction n using natDigits.induct with
  | case1 n h =>
      intro c hc
      rw [natDigits] at hc
      simp only [h, dif_pos, List.mem_singleton] at hc
      subst hc
      exact digitChar_isDigit _ (Nat.mod_lt _ (by omega))
  | case2 n h ih =>
      intro c hc
      rw [natDigits] at hc
      simp only [h, dif_neg, not_false_iff] at hc
      rcases List.mem_append.mp hc with h1 | h1
      · exact ih c h1
      · simp only [List.mem_singleton] at h1
        subst h1
        exact digitChar_isDigit _ (Nat.mod_lt _ (by omega))

/-- The reader parses back exactly the decimal numeral the writer printed. -/
theorem atoi_itoa (n : Nat) : atoi (itoa n) = some (n : Int) := by
  obtain ⟨c, rest, hd⟩ := List.exists_cons_of_ne_nil (natDigits_ne_nil n)
  have hdig : ∀ x ∈ natDigits n, isDigitCh x = true := natDigits_all_digit n
  have hc : isDigitCh c = true := hdig c (by rw [hd]; simp)
  have hcp : ¬(c = '+') := by
    intro he
    subst he
    simp [isDigitCh] at hc
  have hcm : ¬(c = '-') := by
    intro he
    subst he
    simp [isDigitCh] at hc
  have hdata : (itoa n).data = c :: rest := by
    rw [itoa, data_mk, hd]
  rw [atoi, hdata]
  simp only [hcp, if_false, hcm]
  have hall : (c :: rest).all isDigitCh = true := by
    rw [← hd]
    exact List.all_eq_true.mpr hdig
  simp only [hall, if_true]
  rw [← hd, digitsVal_natDigits]

/-! ### Writer row scan characterization -/

theorem maxColGo_append (l : List String) (v : String) : ∀ (j : Nat) (m : Int),
    maxColGo j m (l ++ [v])
      = if v ≠ "" then ((j + l.length : Nat) : Int) else maxColGo j m l := by
  induction l with
  | nil =>
      intro j m
      by_cases hv : v = "" <;> simp [maxColGo, hv]
  | cons a rest ih =>
      intro j m
      have e : maxColGo j m ((a :: rest) ++ [v])
          = maxColGo (j + 1) (if a ≠ "" then (j : Int) else m) (rest ++ [v]) := rfl
      have e2 : maxColGo j m (a :: rest)
          = maxColGo (j + 1) (if a ≠ "" then (j : Int) else m) rest := rfl
      rw [e, ih, e2]
      by_cases hv : v = ""
      · simp [hv]
      · have hv' : v ≠ "" := hv
        have hlen : j + 1 + rest.length = j + (a :: rest).length := by
          simp only [List.length_cons]
          omega
        rw [if_pos hv', if_pos hv', hlen]

/-- Full characterization of the writer's per-row maximum scan: either the row
is all-empty and the result is `-1`, or the result is the greatest index
holding a non-empty value. -/
theorem maxColIndexW_spec (row : List String) :
    (maxColIndexW row = -1 ∧ ∀ v ∈ row, v = "") ∨
    (∃ k : Nat, maxColIndexW row = (k : Int) ∧ k < row.length ∧ row.getD k "" ≠ "" ∧
      ∀ i, k < i → i < row.length → row.getD i "" = "") := by
  induction row using List.reverseRecOn with
  | nil => exact Or.inl ⟨rfl, by simp⟩
  | append_singleton l v ih =>
      have hm : maxColIndexW (l ++ [v])
          = if v ≠ "" then ((0 + l.length : Nat) : Int) else maxColIndexW l := by
        rw [maxColIndexW, maxColGo_append, maxColIndexW]
      by_cases hv : v = ""
      · rw [hm]
        simp only [hv, ne_eq, not_true_eq_false, if_false]
        rcases ih with ⟨h1, h2⟩ | ⟨k, hk, hlt, hne, htrail⟩
        · refine Or.inl ⟨h1, ?_⟩
          intro w hw
          rcases List.mem_append.mp hw with hw | hw
          · exact h2 w hw
          · simp only [List.mem_singleton] at hw
            rw [hw]
        · refine Or.inr ⟨k, hk,
            by simp only [List.length_append, List.length_singleton]; omega, ?_, ?_⟩
          · rwa [List.getD_append _ _ _ _ hlt]
          · intro i hki hilen
            by_cases hil : i < l.length
            · rw [List.getD_append _ _ _ _ hil]
              exact htrail i hki hil
            · have : i = l.length := by simp at hilen; omega
              subst this
              simp [List.getD_append_right, hv]
      · rw [hm]
        have hv' : v ≠ "" := hv
        rw [if_pos hv']
        refine Or.inr ⟨l.length, by norm_num, by simp, ?_, ?_⟩
        · simp [List.getD_append_right, hv]
        · intro i hki hilen
          simp only [List.length_append, List.length_singleton] at hilen
          omega

theorem maxColIndexW_ge (row : List String) : -1 ≤ maxColIndexW row := by
  rcases maxColIndexW_spec row with ⟨h, _⟩ | ⟨k, hk, _⟩
  · omega
  · rw [hk]; omega

theorem maxColIndexW_lt_length (row : List String) :
    maxColIndexW row < (row.length : Int) + 1 := by
  rcases maxColIndexW_spec row with ⟨h, _⟩ | ⟨k, hk, hlt, _⟩
  · rw [h]; omega
  · rw [hk]
    omega

/-- Uniqueness direction of the scan characterization: an index that holds a
non-empty value and is followed only by empty values is the scan result. -/
theorem maxColIndexW_eq_of (row : List String) (m : Nat) (hm : m < row.length)
    (hne : row.getD m "" ≠ "")
    (htrail : ∀ j, m < j → j < row.length → row.getD j "" = "") :
    maxColIndexW row = (m : Int) := by
  rcases maxColIndexW_spec row with ⟨_, hall⟩ | ⟨k, hk, hklt, hkne, hktrail⟩
  · exfalso
    apply hne
    have hmem : row.getD m "" ∈ row := by
      rw [List.getD_eq_getElem _ _ hm]
      exact List.getElem_mem hm
    exact hall _ hmem
  · rcases Nat.lt_trichotomy k m with hkm | hkm | hkm
    · exact absurd (hktrail m hkm hm) hne
    · rw [hk, hkm]
    · exact absurd (htrail k hkm hklt) hkne

/-! ### Emitted cell characterization -/

theorem mem_cellsForRow (sst : List String) (rowNum : Nat) (row : List String) (c : CellXML) :
    c ∈ cellsForRow sst rowNum row ↔
    ∃ cIdx : Nat, cIdx < (maxColIndexW row + 1).toNat ∧ row.getD cIdx "" ≠ "" ∧
      c = CellXML.mk (toColName (cIdx : Int) ++ itoa rowNum) "s"
            (itoa (sst.indexOf (row.getD cIdx ""))) := by
  rw [cellsForRow, List.mem_filterMap]
  constructor
  · rintro ⟨cIdx, hmem, hf⟩
    rw [List.mem_range] at hmem
    simp at hf
    refine ⟨cIdx, hmem, ?_, ?_⟩
    · rw [List.getD_eq_getElem?_getD]
      exact hf.1
    · simp only [List.getD_eq_getElem?_getD]
      exact hf.2.symm
  · rintro ⟨cIdx, hlt, hne, hc⟩
    refine ⟨cIdx, List.mem_range.mpr hlt, ?_⟩
    simp only [hne, if_false]
    rw [hc]

theorem maxColIndexW_eq_neg_iff (row : List String) :
    maxColIndexW row = -1 ↔ ∀ v ∈ row, v = "" := by
  constructor
  · intro h
    rcases maxColIndexW_spec row with ⟨_, h2⟩ | ⟨k, hk, _⟩
    · exact h2
    · rw [hk] at h
      omega
  · intro hall
    rcases maxColIndexW_spec row with ⟨h1, _⟩ | ⟨k, _, hklt, hkne, _⟩
    · exact h1
    · exfalso
      apply hkne
      apply hall
      rw [List.getD_eq_getElem _ _ hklt]
      exact List.getElem_mem hklt

theorem cellsForRow_eq_nil_iff (sst : List String) (rowNum : Nat) (row : List String) :
    cellsForRow sst rowNum row = [] ↔ maxColIndexW row = -1 := by
  constructor
  · intro h
    rcases maxColIndexW_spec row with ⟨h1, _⟩ | ⟨k, hk, hklt, hkne, _⟩
    · exact h1
    · exfalso
      have hmem : CellXML.mk (toColName (k : Int) ++ itoa rowNum) "s"
          (itoa (sst.indexOf (row.getD k ""))) ∈ cellsForRow sst rowNum row := by
        rw [mem_cellsForRow]
        exact ⟨k, by rw [hk]; omega, hkne, rfl⟩
      rw [h] at hmem
      simp at hmem
  · intro h
    rw [cellsForRow, h]
    simp

theorem mem_sheetRowsAux (sst : List String) (rows : List (List String)) :
    ∀ (n : Nat) (rx : RowXML),
    rx ∈ sheetRowsAux sst n rows ↔
    ∃ i : Nat, i < rows.length ∧ cellsForRow sst (n + i) (rows.getD i []) ≠ [] ∧
      rx = RowXML.mk (n + i) (cellsForRow sst (n + i) (rows.getD i [])) := by
  induction rows with
  | nil =>
      intro n rx
      simp [sheetRowsAux]
  | cons row rest ih =>
      intro n rx
      by_cases hc : cellsForRow sst n row = []
      · have he : sheetRowsAux sst n (row :: rest) = sheetRowsAux sst (n + 1) rest := by
          rw [sheetRowsAux]
          simp [hc]
        rw [he, ih]
        constructor
        · rintro ⟨i, hi, hne, hrx⟩
          refine ⟨i + 1, by simp only [List.length_cons]; omega, ?_, ?_⟩
          · have : n + 1 + i = n + (i + 1) := by omega
            rw [← this]
            simpa using hne
          · have : n + 1 + i = n + (i + 1) := by omega
            rw [← this]
            simpa using hrx
        · rintro ⟨i, hi, hne, hrx⟩
          cases i with
          | zero =>
              exfalso
              apply hne
              simpa using hc
          | succ i =>
              refine ⟨i, by simp only [List.length_cons] at hi; omega, ?_, ?_⟩
              · have : n + (i + 1) = n + 1 + i := by omega
                rw [this] at hne
                simpa using hne
              · have : n + (i + 1) = n + 1 + i := by omega
                rw [this] at hrx
                simpa using hrx
      · have he : sheetRowsAux sst n (row :: rest)
            = RowXML.mk n (cellsForRow sst n row) :: sheetRowsAux sst (n + 1) rest := by
          rw [sheetRowsAux]
          simp [hc]
        rw [he]
        simp only [List.mem_cons, ih]
        constructor
        · rintro (hrx | ⟨i, hi, hne, hrx⟩)
          · refine ⟨0, by simp, ?_, ?_⟩
            · simpa using hc
            · simpa using hrx
          · refine ⟨i + 1, by simp only [List.length_cons]; omega, ?_, ?_⟩
            · have : n + 1 + i = n + (i + 1) := by omega
              rw [← this]
              simpa using hne
            · have : n + 1 + i = n + (i + 1) := by omega
              rw [← this]
              simpa using hrx
        · rintro ⟨i, hi, hne, hrx⟩
          cases i with
          | zero =>
              left
              simpa using hrx
          | succ i =>
              right
              refine ⟨i, by simp only [List.length_cons] at hi; omega, ?_, ?_⟩
              · have : n + (i + 1) = n + 1 + i := by omega
                rw [this] at hne
                simpa using hne
              · have : n + (i + 1) = n + 1 + i := by omega
                rw [this] at hrx
                simpa using hrx

theorem mem_allVals (sheets : List SheetData) (s : SheetData) (hs : s ∈ sheets)
    (row : List String) (hr : row ∈ s.rows) (v : String) (hv : v ∈ row) :
    v ∈ allVals sheets := by
  rw [allVals]
  rw [List.mem_flatten]
  refine ⟨s.rows.flatten, ?_, ?_⟩
  · exact List.mem_map.mpr ⟨s, hs, rfl⟩
  · exact List.mem_flatten.mpr ⟨row, hr, hv⟩

/-! ### Reader-side fold lemmas -/

theorem resolveVal_s_some (sst : List String) (v : String) (i : Int) (h : atoi v = some i) :
    resolveVal sst "s" v
      = if 0 ≤ i ∧ i < (sst.length : Int) then sst.getD i.toNat "" else "" := by
  rw [resolveVal, if_pos rfl, h]

theorem resolveVal_s_none (sst : List String) (v : String) (h : atoi v = none) :
    resolveVal sst "s" v = "" := by
  rw [resolveVal, if_pos rfl, h]

theorem readFold_length (sst : List String) (cells : List CellXML) : ∀ acc : List String,
    (cells.foldl (fun a c => a.set (colRefToIndex c.r).toNat (resolveVal sst c.t c.v)) acc).length
      = acc.length := by
  induction cells with
  | nil => intro acc; rfl
  | cons c rest ih =>
      intro acc
      rw [List.foldl_cons, ih, List.length_set]

theorem readFold_untouched (sst : List String) (cells : List CellXML) :
    ∀ (acc : List String) (j : Nat),
    (∀ c ∈ cells, (colRefToIndex c.r).toNat ≠ j) →
    (cells.foldl (fun a c => a.set (colRefToIndex c.r).toNat (resolveVal sst c.t c.v)) acc).getD j ""
      = acc.getD j "" := by
  induction cells with
  | nil => intro acc j _; rfl
  | cons c rest ih =>
      intro acc j hno
      rw [List.foldl_cons, ih _ j (fun c2 h2 => hno c2 (List.mem_cons_of_mem _ h2))]
      have hne : (colRefToIndex c.r).toNat ≠ j := hno c (List.mem_cons_self _ _)
      simp only [List.getD_eq_getElem?_getD]
      rw [List.getElem?_set_ne hne]

theorem readFold_hit (sst : List String) (cells : List CellXML) :
    ∀ (acc : List String) (j : Nat) (v : String),
    (cells.map (fun c => (colRefToIndex c.r).toNat)).Nodup →
    j < acc.length →
    (∃ c ∈ cells, (colRefToIndex c.r).toNat = j ∧ resolveVal sst c.t c.v = v) →
    (cells.foldl (fun a c => a.set (colRefToIndex c.r).toNat (resolveVal sst c.t c.v)) acc).getD j ""
      = v := by
  induction cells with
  | nil =>
      rintro acc j v _ _ ⟨c, hc, _⟩
      simp at hc
  | cons c rest ih =>
      rintro acc j v hnd hlen ⟨c0, hc0mem, hc0j, hc0v⟩
      rw [List.map_cons, List.nodup_cons] at hnd
      rw [List.foldl_cons]
      rcases List.mem_cons.mp hc0mem with hc0 | hc0
      · subst hc0
        have hnone : ∀ c2 ∈ rest, (colRefToIndex c2.r).toNat ≠ j := by
          intro c2 h2 hj
          apply hnd.1
          rw [hc0j]
          exact hj ▸ List.mem_map_of_mem _ h2
        rw [readFold_untouched sst rest _ j hnone, hc0j, ← hc0v]
        simp only [List.getD_eq_getElem?_getD]
        rw [List.getElem?_set_self hlen]
        rfl
      · exact ih _ j v hnd.2 (by rwa [List.length_set]) ⟨c0, hc0, hc0j, hc0v⟩

theorem foldMax_ge_init (cells : List CellXML) : ∀ m0 : Int,
    m0 ≤ cells.foldl (fun m c => if colRefToIndex c.r > m then colRefToIndex c.r else m) m0 := by
  induction cells with
  | nil => intro m0; simp
  | cons c rest ih =>
      intro m0
      rw [List.foldl_cons]
      refine le_trans ?_ (ih _)
      split <;> omega

theorem foldMax_ge_mem (cells : List CellXML) : ∀ (m0 : Int) (c : CellXML), c ∈ cells →
    colRefToIndex c.r
      ≤ cells.foldl (fun m c => if colRefToIndex c.r > m then colRefToIndex c.r else m) m0 := by
  induction cells with
  | nil => intro m0 c hc; simp at hc
  | cons c0 rest ih =>
      intro m0 c hc
      rw [List.foldl_cons]
      rcases List.mem_cons.mp hc with hc | hc
      · subst hc
        refine le_trans ?_ (foldMax_ge_init rest _)
        split <;> omega
      · exact ih _ c hc

theorem foldMax_le (cells : List CellXML) : ∀ (m0 B : Int), m0 ≤ B →
    (∀ c ∈ cells, colRefToIndex c.r ≤ B) →
    cells.foldl (fun m c => if colRefToIndex c.r > m then colRefToIndex c.r else m) m0 ≤ B := by
  induction cells with
  | nil => intro m0 B h _; simpa using h
  | cons c rest ih =>
      intro m0 B h hall
      rw [List.foldl_cons]
      refine ih _ B ?_ (fun c2 h2 => hall c2 (List.mem_cons_of_mem _ h2))
      have := hall c (List.mem_cons_self _ _)
      split <;> omega

/-! ### Reading back a written row -/

theorem le_maxColIndexW_of_ne (row : List String) (cIdx : Nat)
    (h1 : cIdx < row.length) (h2 : row.getD cIdx "" ≠ "") :
    (cIdx : Int) ≤ maxColIndexW row := by
  rcases maxColIndexW_spec row with ⟨_, hall⟩ | ⟨k, hk, _, _, htrail⟩
  · exfalso
    apply h2
    apply hall
    rw [List.getD_eq_getElem _ _ h1]
    exact List.getElem_mem h1
  · rw [hk]
    by_contra hlt
    push_neg at hlt
    have hklt : k < cIdx := by exact_mod_cast hlt
    exact h2 (htrail cIdx hklt h1)

theorem maxColIndexW_lt_of_ge (row : List String) (h : 0 ≤ maxColIndexW row) :
    maxColIndexW row < (row.length : Int) := by
  rcases maxColIndexW_spec row with ⟨h1, _⟩ | ⟨k, hk, hklt, _⟩
  · rw [h1] at h; omega
  · rw [hk]; exact_mod_cast hklt

theorem lt_toNat_maxCol (row : List String) (cIdx : Nat) :
    cIdx < (maxColIndexW row + 1).toNat ↔ (cIdx : Int) ≤ maxColIndexW row := by
  have h := maxColIndexW_ge row
  omega

/-- Decoding the cells the writer emitted for a row reproduces the row up to
its last non-empty cell, provided the shared-string table resolves the row's
values (which the writer's own table does). -/
theorem readRow_cellsForRow (sst : List String) (row : List String) (rowNum : Nat)
    (hnz : maxColIndexW row ≠ -1)
    (hsst : ∀ v ∈ row, v ≠ "" →
      sst.indexOf v < sst.length ∧ sst.getD (sst.indexOf v) "" = v) :
    readRow sst (cellsForRow sst rowNum row)
      = some (row.take ((maxColIndexW row).toNat + 1)) := by
  obtain ⟨k, hk, hklt, hkne, hktrail⟩ :
      ∃ k : Nat, maxColIndexW row = (k : Int) ∧ k < row.length ∧ row.getD k "" ≠ "" ∧
        ∀ i, k < i → i < row.length → row.getD i "" = "" := by
    rcases maxColIndexW_spec row with ⟨h1, _⟩ | hx
    · exact absurd h1 hnz
    · exact hx
  have hdecode : ∀ c ∈ cellsForRow sst rowNum row,
      ∃ cIdx : Nat, cIdx < (maxColIndexW row + 1).toNat ∧ row.getD cIdx "" ≠ "" ∧
        colRefToIndex c.r = (cIdx : Int) ∧
        resolveVal sst c.t c.v = row.getD cIdx "" := by
    intro c hc
    obtain ⟨cIdx, hlt, hne, hceq⟩ := (mem_cellsForRow sst rowNum row c).mp hc
    refine ⟨cIdx, hlt, hne, ?_, ?_⟩
    · rw [hceq]
      exact colRefToIndex_toColName cIdx rowNum
    · rw [hceq]
      have hv : row.getD cIdx "" ∈ row := by
        have hcl : cIdx < row.length := by
          have h1 := (lt_toNat_maxCol row cIdx).mp hlt
          have h2 := maxColIndexW_lt_of_ge row (le_trans (by positivity) h1)
          omega
        rw [List.getD_eq_getElem _ _ hcl]
        exact List.getElem_mem hcl
      obtain ⟨hidx, hres⟩ := hsst _ hv hne
      show resolveVal sst "s" (itoa (sst.indexOf (row.getD cIdx ""))) = _
      rw [resolveVal_s_some sst _ _ (atoi_itoa _)]
      rw [if_pos ⟨Int.natCast_nonneg _, by exact_mod_cast hidx⟩]
      simpa using hres
  have hguard : (cellsForRow sst rowNum row).all (fun c => 0 ≤ colRefToIndex c.r) = true := by
    rw [List.all_eq_true]
    intro c hc
    obtain ⟨cIdx, _, _, hcol, _⟩ := hdecode c hc
    simp only [decide_eq_true_eq]
    rw [hcol]
    positivity
  have hmax : (cellsForRow sst rowNum row).foldl
      (fun m c => if colRefToIndex c.r > m then colRefToIndex c.r else m) 0 = (k : Int) := by
    have hcellk : CellXML.mk (toColName (k : Int) ++ itoa rowNum) "s"
        (itoa (sst.indexOf (row.getD k ""))) ∈ cellsForRow sst rowNum row := by
      rw [mem_cellsForRow]
      exact ⟨k, by rw [hk]; omega, hkne, rfl⟩
    have hge := foldMax_ge_mem (cellsForRow sst rowNum row) 0 _ hcellk
    have hdk : colRefToIndex (toColName (k : Int) ++ itoa rowNum) = (k : Int) :=
      colRefToIndex_toColName k rowNum
    rw [hdk] at hge
    have hle : (cellsForRow sst rowNum row).foldl
        (fun m c => if colRefToIndex c.r > m then colRefToIndex c.r else m) 0 ≤ (k : Int) := by
      refine foldMax_le _ 0 (k : Int) (by positivity) ?_
      intro c hc
      obtain ⟨cIdx, hlt, _, hcol, _⟩ := hdecode c hc
      rw [hcol]
      have := (lt_toNat_maxCol row cIdx).mp hlt
      omega
    omega
  have hnodup : ((cellsForRow sst rowNum row).map
      (fun c => (colRefToIndex c.r).toNat)).Nodup := by
    rw [cellsForRow, List.map_filterMap]
    have hfe : ∀ cIdx ∈ List.range ((maxColIndexW row + 1).toNat),
        ((fun cIdx => if row.getD cIdx "" = "" then none
            else some (CellXML.mk (toColName (cIdx : Int) ++ itoa rowNum) "s"
              (itoa (sst.indexOf (row.getD cIdx ""))))) cIdx).map
          (fun c => (colRefToIndex c.r).toNat)
        = if row.getD cIdx "" = "" then none else some cIdx := by
      intro cIdx _
      by_cases he : row.getD cIdx "" = ""
      · rw [List.getD_eq_getElem?_getD] at he
        simp [he]
      · rw [List.getD_eq_getElem?_getD] at he
        simp [he, colRefToIndex_toColName]
    rw [List.filterMap_congr hfe]
    have : (List.range ((maxColIndexW row + 1).toNat)).filterMap
        (fun cIdx => if row.getD cIdx "" = "" then none else some cIdx)
        = (List.range ((maxColIndexW row + 1).toNat)).filter
          (fun cIdx => ¬(row.getD cIdx "" = "")) := by
      rw [← List.filterMap_eq_filter]
      apply List.filterMap_congr
      intro a _
      by_cases he : row.getD a "" = "" <;> simp [he, Option.guard]
    rw [this]
    exact (List.nodup_range _).filter _
  rw [readRow, if_pos hguard, hmax, hk]
  congr 1
  have hlen1 : ((k : Int) + 1).toNat = k + 1 := by omega
  have htNat : ((k : Int)).toNat = k := by omega
  rw [hlen1, htNat]
  have hlenL : ((cellsForRow sst rowNum row).foldl
      (fun a c => a.set (colRefToIndex c.r).toNat (resolveVal sst c.t c.v))
      (List.replicate (k + 1) "")).length = k + 1 := by
    rw [readFold_length, List.length_replicate]
  have hlenR : (row.take (k + 1)).length = k + 1 := by
    rw [List.length_take]
    omega
  apply List.ext_getElem (by rw [hlenL, hlenR])
  intro j hj1 hj2
  have hjk : j < k + 1 := by
    have h2 := hj1
    rwa [hlenL] at h2
  have hgl : ∀ (l : List String) (hjl : j < l.length), l[j] = l.getD j "" := by
    intro l hjl
    rw [List.getD_eq_getElem _ _ hjl]
  rw [hgl _ hj1, hgl _ hj2]
  have htake : (row.take (k + 1)).getD j "" = row.getD j "" := by
    simp only [List.getD_eq_getElem?_getD]
    rw [List.getElem?_take_of_lt hjk]
  rw [htake]
  by_cases he : row.getD j "" = ""
  · rw [readFold_untouched sst _ _ j ?_]
    · rw [List.getD_eq_getElem _ _ (by rw [List.length_replicate]; exact hjk)]
      rw [List.getD_eq_getElem?_getD] at he
      simp [he]
    · intro c hc hcj
      obtain ⟨cIdx, _, hne, hcol, _⟩ := hdecode c hc
      rw [hcol] at hcj
      have : cIdx = j := by omega
      exact hne (this ▸ he)
  · rw [readFold_hit sst _ _ j (row.getD j "") hnodup
      (by rw [List.length_replicate]; exact hjk) ?_]
    have hjlt : j < (maxColIndexW row + 1).toNat := by rw [hk]; omega
    refine ⟨CellXML.mk (toColName (j : Int) ++ itoa rowNum) "s"
      (itoa (sst.indexOf (row.getD j ""))), ?_, ?_, ?_⟩
    · rw [mem_cellsForRow]
      exact ⟨j, hjlt, he, rfl⟩
    · rw [colRefToIndex_toColName]
      omega
    · obtain ⟨cIdx2, _, _, _, _⟩ := hdecode _ ((mem_cellsForRow sst rowNum row _).mpr
        ⟨j, hjlt, he, rfl⟩)
      have hv : row.getD j "" ∈ row := by
        have hjl : j < row.length := by omega
        rw [List.getD_eq_getElem _ _ hjl]
        exact List.getElem_mem hjl
      obtain ⟨hidx, hres⟩ := hsst _ hv he
      show resolveVal sst "s" (itoa (sst.indexOf (row.getD j ""))) = _
      rw [resolveVal_s_some sst _ _ (atoi_itoa _)]
      rw [if_pos ⟨Int.natCast_nonneg _, by exact_mod_cast hidx⟩]
      simpa using hres

/-! ### Sheet and package round trip -/

/-- The fate of one model row across write-then-read: an all-empty row is
dropped, any other row is truncated just past its last non-empty cell. -/
def truncRow (row : List String) : Option (List String) :=
  if maxColIndexW row = -1 then none
  else some (row.take ((maxColIndexW row).toNat + 1))

theorem readSheetRows_writeRows (sst : List String) (rows : List (List String))
    (hsst : ∀ row ∈ rows, ∀ v ∈ row, v ≠ "" →
      sst.indexOf v < sst.length ∧ sst.getD (sst.indexOf v) "" = v) :
    ∀ n : Nat, readSheetRows sst (sheetRowsAux sst n rows)
      = some (rows.filterMap truncRow) := by
  induction rows with
  | nil => intro n; rfl
  | cons row rest ih =>
      intro n
      have ihr := ih (fun r hr => hsst r (List.mem_cons_of_mem _ hr)) (n + 1)
      by_cases hc : cellsForRow sst n row = []
      · have hm : maxColIndexW row = -1 := (cellsForRow_eq_nil_iff sst n row).mp hc
        have he : sheetRowsAux sst n (row :: rest) = sheetRowsAux sst (n + 1) rest := by
          rw [sheetRowsAux]
          simp [hc]
        rw [he, ihr, List.filterMap_cons]
        rw [show truncRow row = none from by rw [truncRow, if_pos hm]]
      · have hm : maxColIndexW row ≠ -1 :=
          fun h => hc ((cellsForRow_eq_nil_iff sst n row).mpr h)
        have he : sheetRowsAux sst n (row :: rest)
            = RowXML.mk n (cellsForRow sst n row) :: sheetRowsAux sst (n + 1) rest := by
          rw [sheetRowsAux]
          simp [hc]
        rw [he, readSheetRows]
        simp only [hc, if_false]
        rw [readRow_cellsForRow sst row n hm (hsst row (List.mem_cons_self _ _)), ihr]
        rw [List.filterMap_cons]
        rw [show truncRow row = some (row.take ((maxColIndexW row).toNat + 1)) from
          by rw [truncRow, if_neg hm]]
        rfl

theorem mapM_readSheets (sst : List String) (sheetsL : List SheetData)
    (hsst : ∀ s ∈ sheetsL, ∀ row ∈ s.rows, ∀ v ∈ row, v ≠ "" →
      sst.indexOf v < sst.length ∧ sst.getD (sst.indexOf v) "" = v) :
    (sheetsL.map (fun s => sheetRowsXML sst s.rows)).mapM (readSheetRows sst)
      = some (sheetsL.map (fun s => s.rows.filterMap truncRow)) := by
  induction sheetsL with
  | nil => rfl
  | cons s rest ih =>
      rw [List.map_cons, List.map_cons, List.mapM_cons]
      rw [sheetRowsXML, readSheetRows_writeRows sst s.rows
        (hsst s (List.mem_cons_self _ _)) 1]
      rw [ih (fun s2 h2 => hsst s2 (List.mem_cons_of_mem _ h2))]
      rfl

/-- The writer's own shared-string table satisfies the resolution property for
every value of the written sheets. -/
theorem collectSST_good (sheets : List SheetData) :
    ∀ s ∈ sheets, ∀ row ∈ s.rows, ∀ v ∈ row, v ≠ "" →
      (collectSST sheets).indexOf v < (collectSST sheets).length ∧
      (collectSST sheets).getD ((collectSST sheets).indexOf v) "" = v := by
  intro s hs row hr v hv hne
  exact collectSST_indexOf_resolve sheets v
    ((mem_collectSST sheets v).mpr ⟨hne, mem_allVals sheets s hs row hr v hv⟩)

/-- Whole-package round trip: decoding the pure package content written by
`WriteExcel` succeeds, and yields each sheet's rows with all-empty rows
dropped and every other row truncated just past its last non-empty cell. -/
theorem readExcelPure_writeExcelPure (sheets : List SheetData) :
    readExcelPure (collectSST sheets) (writeExcelPure sheets).2
      = some (sheets.map (fun s => s.rows.filterMap truncRow)) := by
  rw [readExcelPure, writeExcelPure]
  exact mapM_readSheets (collectSST sheets) sheets (collectSST_good sheets)

/-- C1: for every row whose non-empty cells sit at column indices `S` with
maximum `m`, writing the sheet with `WriteExcel` and reading it back with
`ReadExcel` yields a dense row of length `m + 1` in which every index in `S`
holds its original value and every index not in `S` holds the empty string. -/
theorem C1_sparse_write_dense_read (sheets : List SheetData) (k : Nat)
    (hk : k < sheets.length) (row : List String)
    (hrow : row ∈ (sheets.getD k default).rows)
    (m : Nat) (hm : m < row.length) (hne : row.getD m "" ≠ "")
    (htrail : ∀ j, m < j → j < row.length → row.getD j "" = "") :
    ∃ decodedSheets,
      readExcelPure (collectSST sheets) (writeExcelPure sheets).2 = some decodedSheets ∧
      ∃ rowD ∈ decodedSheets.getD k [], rowD.length = m + 1 ∧
        (∀ j, j ≤ m → row.getD j "" ≠ "" → rowD.getD j "" = row.getD j "") ∧
        (∀ j, j ≤ m → row.getD j "" = "" → rowD.getD j "" = "") := by
  refine ⟨_, readExcelPure_writeExcelPure sheets, ?_⟩
  have hmc : maxColIndexW row = (m : Int) := maxColIndexW_eq_of row m hm hne htrail
  have hgd : (sheets.map (fun s => s.rows.filterMap truncRow)).getD k []
      = (sheets.getD k default).rows.filterMap truncRow := by
    rw [List.getD_eq_getElem _ _ (by simpa using hk), List.getElem_map,
      List.getD_eq_getElem _ _ hk]
  rw [hgd]
  refine ⟨row.take (m + 1), ?_, ?_, ?_, ?_⟩
  · apply List.mem_filterMap.mpr
    refine ⟨row, hrow, ?_⟩
    rw [truncRow, if_neg (by rw [hmc]; omega), hmc, Int.toNat_natCast]
  · rw [List.length_take]
    omega
  · intro j hj _
    simp only [List.getD_eq_getElem?_getD]
    rw [List.getElem?_take_of_lt (by omega)]
  · intro j hj he
    simp only [List.getD_eq_getElem?_getD]
    rw [List.getElem?_take_of_lt (by omega)]
    rw [List.getD_eq_getElem?_getD] at he
    exact he

/-- Witness for C1: a worksheet whose only row has cells at A1 and C1 only
decodes to a three-element row with an empty middle cell. -/
theorem C1_sparse_write_dense_read_witness :
    ∃ decodedSheets,
      readExcelPure (collectSST [⟨"S", [["Name", "", "Score"]]⟩])
          (writeExcelPure [⟨"S", [["Name", "", "Score"]]⟩]).2 = some decodedSheets ∧
      ∃ rowD ∈ decodedSheets.getD 0 [], rowD.length = 2 + 1 ∧
        (∀ j, j ≤ 2 → (["Name", "", "Score"] : List String).getD j "" ≠ "" →
          rowD.getD j "" = (["Name", "", "Score"] : List String).getD j "") ∧
        (∀ j, j ≤ 2 → (["Name", "", "Score"] : List String).getD j "" = "" →
          rowD.getD j "" = "") :=
  C1_sparse_write_dense_read [⟨"S", [["Name", "", "Score"]]⟩] 0 (by decide)
    ["Name", "", "Score"] (by decide) 2 (by decide) (by decide)
    (by
      intro j h1 h2
      simp only [List.length_cons, List.length_nil] at h2
      omega)

/-- C5: within a written worksheet, a cell element is emitted for a
(row, column) position iff the value there is non-empty (hence its column is
at most the row's highest non-empty column); every emitted cell carries the
letters-plus-row-number reference, type flag `"s"` and a shared-string index
payload; all-empty rows are omitted from the row list. -/
theorem C5_sparse_cell_emission (sst : List String) (rows : List (List String)) :
    (∀ rx ∈ sheetRowsXML sst rows, ∀ c ∈ rx.cells,
      ∃ rIdx cIdx : Nat, rIdx < rows.length ∧ rx.r = rIdx + 1 ∧
        cIdx < (rows.getD rIdx []).length ∧
        (rows.getD rIdx []).getD cIdx "" ≠ "" ∧
        (cIdx : Int) ≤ maxColIndexW (rows.getD rIdx []) ∧
        c = CellXML.mk (toColName (cIdx : Int) ++ itoa (rIdx + 1)) "s"
              (itoa (sst.indexOf ((rows.getD rIdx []).getD cIdx "")))) ∧
    (∀ rIdx cIdx : Nat, rIdx < rows.length → cIdx < (rows.getD rIdx []).length →
      (rows.getD rIdx []).getD cIdx "" ≠ "" →
      ∃ rx ∈ sheetRowsXML sst rows, rx.r = rIdx + 1 ∧
        CellXML.mk (toColName (cIdx : Int) ++ itoa (rIdx + 1)) "s"
            (itoa (sst.indexOf ((rows.getD rIdx []).getD cIdx ""))) ∈ rx.cells) ∧
    (∀ rIdx : Nat, rIdx < rows.length → (∀ v ∈ rows.getD rIdx [], v = "") →
      ∀ rx ∈ sheetRowsXML sst rows, rx.r ≠ rIdx + 1) := by
  refine ⟨?_, ?_, ?_⟩
  · intro rx hrx c hc
    obtain ⟨i, hi, hne, hrxe⟩ := (mem_sheetRowsAux sst rows 1 rx).mp hrx
    subst hrxe
    obtain ⟨cIdx, hlt, hcne, hceq⟩ := (mem_cellsForRow sst (1 + i) _ c).mp hc
    have hle : (cIdx : Int) ≤ maxColIndexW (rows.getD i []) :=
      (lt_toNat_maxCol _ _).mp hlt
    have hclen : cIdx < (rows.getD i []).length := by
      have h2 := maxColIndexW_lt_of_ge (rows.getD i [])
        (le_trans (Int.natCast_nonneg _) hle)
      omega
    refine ⟨i, cIdx, hi, by simp [Nat.add_comm], hclen, hcne, hle, ?_⟩
    rw [hceq]
    rw [Nat.add_comm 1 i]
  · intro rIdx cIdx h1 h2 h3
    have hle := le_maxColIndexW_of_ne _ _ h2 h3
    have hneC : cellsForRow sst (1 + rIdx) (rows.getD rIdx []) ≠ [] := by
      intro h
      have := (cellsForRow_eq_nil_iff sst (1 + rIdx) (rows.getD rIdx [])).mp h
      rw [this] at hle
      omega
    refine ⟨RowXML.mk (1 + rIdx) (cellsForRow sst (1 + rIdx) (rows.getD rIdx [])), ?_, ?_, ?_⟩
    · exact (mem_sheetRowsAux sst rows 1 _).mpr ⟨rIdx, h1, hneC, rfl⟩
    · simp [Nat.add_comm]
    · show CellXML.mk _ "s" _ ∈ cellsForRow sst (1 + rIdx) (rows.getD rIdx [])
      rw [mem_cellsForRow]
      exact ⟨cIdx, (lt_toNat_maxCol _ _).mpr hle, h3, by rw [Nat.add_comm 1 rIdx]⟩
  · intro rIdx h1 hall rx hrx hr
    obtain ⟨i, hi, hne, hrxe⟩ := (mem_sheetRowsAux sst rows 1 rx).mp hrx
    subst hrxe
    simp only at hr
    have hieq : i = rIdx := by omega
    subst hieq
    apply hne
    rw [cellsForRow_eq_nil_iff]
    rw [maxColIndexW_eq_neg_iff]
    exact hall

/-- Witness for C5 (the completeness conjunct at a one-cell sheet). -/
theorem C5_sparse_cell_emission_witness :
    ∃ rx ∈ sheetRowsXML ["x"] [["x"]], rx.r = 0 + 1 ∧
      CellXML.mk (toColName ((0 : Nat) : Int) ++ itoa (0 + 1)) "s"
          (itoa (["x"].indexOf ((([["x"]] : List (List String)).getD 0 []).getD 0 "")))
        ∈ rx.cells :=
  (C5_sparse_cell_emission ["x"] [["x"]]).2.1 0 0 (by decide) (by decide) (by decide)

/-- C8: a shared-string cell whose index is non-numeric or out of range of the
table resolves to the empty string, and the row read still succeeds. -/
theorem C8_bad_shared_string_resolves_empty (sst : List String) (v : String)
    (hbad : atoi v = none ∨
      ∃ i : Int, atoi v = some i ∧ (i < 0 ∨ (sst.length : Int) ≤ i)) :
    resolveVal sst "s" v = "" ∧
    ∀ cells : List CellXML, ∀ ref : String,
      (∀ c ∈ cells, 0 ≤ colRefToIndex c.r) →
      (cells.map (fun c => (colRefToIndex c.r).toNat)).Nodup →
      CellXML.mk ref "s" v ∈ cells →
      ∃ out, readRow sst cells = some out ∧
        out.getD (colRefToIndex ref).toNat "" = "" := by
  have hres : resolveVal sst "s" v = "" := by
    rcases hbad with h | ⟨i, hi, hrange⟩
    · exact resolveVal_s_none sst v h
    · rw [resolveVal_s_some sst v i hi, if_neg (by omega)]
  refine ⟨hres, ?_⟩
  intro cells ref hnn hnd hmem
  have hguard : (cells.all (fun c => 0 ≤ colRefToIndex c.r)) = true := by
    rw [List.all_eq_true]
    intro c hc
    simpa using hnn c hc
  rw [readRow, if_pos hguard]
  refine ⟨_, rfl, ?_⟩
  have hd0 : colRefToIndex (CellXML.mk ref "s" v).r = colRefToIndex ref := rfl
  have hle := foldMax_ge_mem cells 0 _ hmem
  rw [hd0] at hle
  have hinit := foldMax_ge_init cells 0
  have hnn0 : 0 ≤ colRefToIndex ref := by simpa using hnn _ hmem
  apply readFold_hit sst cells _ _ _ hnd
  · rw [List.length_replicate]
    omega
  · exact ⟨CellXML.mk ref "s" v, hmem, rfl, hres⟩

/-- Witness for C8 at a concrete bad cell: index string "abc" is non-numeric. -/
theorem C8_bad_shared_string_resolves_empty_witness :
    resolveVal ["x"] "s" "abc" = "" ∧
    ∀ cells : List CellXML, ∀ ref : String,
      (∀ c ∈ cells, 0 ≤ colRefToIndex c.r) →
      (cells.map (fun c => (colRefToIndex c.r).toNat)).Nodup →
      CellXML.mk ref "s" "abc" ∈ cells →
      ∃ out, readRow ["x"] cells = some out ∧
        out.getD (colRefToIndex ref).toNat "" = "" :=
  C8_bad_shared_string_resolves_empty ["x"] "abc" (Or.inl (by decide))

/-- C10: every cell value payload emitted by the writer is the decimal numeral
of an index below the emitted table's uniqueCount, and the table entry there
is the cell's original string. -/
theorem C10_written_references_resolve (sheets : List SheetData) (k : Nat)
    (hk : k < sheets.length) :
    ∀ rx ∈ (writeExcelPure sheets).2.getD k [], ∀ c ∈ rx.cells,
      ∃ i : Nat, ∃ v : String,
        c.v = itoa i ∧ i < (writeExcelPure sheets).1.uniqueCount ∧
        (writeExcelPure sheets).1.si.getD i "" = v ∧ v ≠ "" ∧
        v = ((sheets.getD k default).rows.getD (rx.r - 1) []).getD
              (colRefToIndex c.r).toNat "" := by
  have hws : (writeExcelPure sheets).2.getD k []
      = sheetRowsXML (collectSST sheets) ((sheets.getD k default).rows) := by
    show (sheets.map (fun s => sheetRowsXML (collectSST sheets) s.rows)).getD k [] = _
    rw [List.getD_eq_getElem _ _ (by simpa using hk), List.getElem_map,
      List.getD_eq_getElem _ _ hk]
  rw [hws]
  intro rx hrx c hc
  obtain ⟨rIdx, cIdx, hr, hrxr, hclen, hcne, _, hceq⟩ :=
    (C5_sparse_cell_emission (collectSST sheets) ((sheets.getD k default).rows)).1 rx hrx c hc
  have hvmem : ((sheets.getD k default).rows.getD rIdx []).getD cIdx ""
      ∈ allVals sheets := by
    apply mem_allVals sheets (sheets.getD k default)
      (by rw [List.getD_eq_getElem _ _ hk]; exact List.getElem_mem hk)
      ((sheets.getD k default).rows.getD rIdx [])
      (by rw [List.getD_eq_getElem _ _ hr]; exact List.getElem_mem hr)
    rw [List.getD_eq_getElem _ _ hclen]
    exact List.getElem_mem hclen
  have hsstmem : ((sheets.getD k default).rows.getD rIdx []).getD cIdx ""
      ∈ collectSST sheets := (mem_collectSST sheets _).mpr ⟨hcne, hvmem⟩
  obtain ⟨hidx, hres⟩ := collectSST_indexOf_resolve sheets _ hsstmem
  refine ⟨(collectSST sheets).indexOf (((sheets.getD k default).rows.getD rIdx []).getD cIdx ""),
    ((sheets.getD k default).rows.getD rIdx []).getD cIdx "", ?_, ?_, ?_, hcne, ?_⟩
  · rw [hceq]
  · exact hidx
  · exact hres
  · rw [hceq, hrxr]
    simp only [Nat.add_sub_cancel]
    show _ = ((sheets.getD k default).rows.getD rIdx []).getD
      (colRefToIndex (toColName (cIdx : Int) ++ itoa (rIdx + 1))).toNat ""
    rw [colRefToIndex_toColName]
    simp

/-- Witness for C10 at a one-cell package. -/
theorem C10_written_references_resolve_witness :
    ∃ i : Nat, ∃ v : String,
      itoa ((["x"] : List String).indexOf ((["x"] : List String).getD 0 "")) = itoa i ∧
      i < (writeExcelPure [⟨"S", [["x"]]⟩]).1.uniqueCount ∧
      (writeExcelPure [⟨"S", [["x"]]⟩]).1.si.getD i "" = v ∧ v ≠ "" ∧
      v = (["x"] : List String).getD
            (colRefToIndex (toColName ((0 : Nat) : Int) ++ itoa 1)).toNat "" := by
  have hrx : RowXML.mk 1 (cellsForRow ["x"] 1 ["x"])
      ∈ (writeExcelPure [⟨"S", [["x"]]⟩]).2.getD 0 [] := by
    show RowXML.mk 1 (cellsForRow ["x"] 1 ["x"]) ∈ sheetRowsXML ["x"] [["x"]]
    refine (mem_sheetRowsAux ["x"] [["x"]] 1 _).mpr ⟨0, by decide, ?_, rfl⟩
    intro hnil
    have := (cellsForRow_eq_nil_iff ["x"] (1 + 0) ([["x"]].getD 0 [])).mp hnil
    revert this
    decide
  have hc : CellXML.mk (toColName ((0 : Nat) : Int) ++ itoa 1) "s"
      (itoa ((["x"] : List String).indexOf ((["x"] : List String).getD 0 "")))
      ∈ (RowXML.mk 1 (cellsForRow ["x"] 1 ["x"])).cells := by
    show _ ∈ cellsForRow ["x"] 1 ["x"]
    exact (mem_cellsForRow ["x"] 1 ["x"] _).mpr ⟨0, by decide, by decide, rfl⟩
  exact C10_written_references_resolve [⟨"S", [["x"]]⟩] 0 (by decide)
    (RowXML.mk 1 (cellsForRow ["x"] 1 ["x"])) hrx _ hc

/-! ### Markdown writer (`ToMarkdown`, pkg/markdown/writer.go lines 9–57) -/

/-- The writer's padding step: rows shorter than the sheet-wide column count
get trailing empty strings; other rows are left untouched. -/
def padTo (n : Nat) (row : List String) : List String :=
  if row.length < n then row ++ List.replicate (n - row.length) "" else row

/-- Sheet-wide column count: the length of the longest row
(`if len(r) > colCount { colCount = len(r) }`). -/
def colCountOf (rows : List (List String)) : Nat :=
  rows.foldl (fun m r => if r.length > m then r.length else m) 0

/-- One pipe-delimited table line: `"| " + strings.Join(row, " | ") + " |\n"`. -/
def mdRowLine (row : List String) : String := "| " ++ strJoin " | " row ++ " |\n"

/-- The separator line: `"|" + strings.Repeat(" --- |", colCount) + "\n"`. -/
def mdSepLine (n : Nat) : String := "|" ++ strRep " --- |" n ++ "\n"

/-- The Markdown text contributed by one sheet: nothing for a rowless sheet,
otherwise heading, blank line, header row (the first row after padding),
separator, body rows and a trailing blank line. -/
def sheetMd (sheet : SheetData) : String :=
  if sheet.rows = [] then ""
  else
    "## " ++ sheet.name ++ "\n\n"
      ++ mdRowLine ((sheet.rows.map (padTo (colCountOf sheet.rows))).headD [])
      ++ mdSepLine (colCountOf sheet.rows)
      ++ String.join (((sheet.rows.map (padTo (colCountOf sheet.rows))).drop 1).map mdRowLine)
      ++ "\n"

/-- Model of `ToMarkdown`: the string-builder accumulation over all sheets. -/
def toMarkdown (sheets : List SheetData) : String :=
  sheets.foldl (fun acc sheet => acc ++ sheetMd sheet) ""

/-! ### Markdown writer lemmas -/

theorem string_append_empty (s : String) : s ++ "" = s := by
  cases s
  show String.mk _ = String.mk _
  simp [String.append]

theorem string_empty_append (s : String) : "" ++ s = s := by
  cases s
  rfl

theorem string_append_assoc (a b c : String) : a ++ b ++ c = a ++ (b ++ c) := by
  cases a; cases b; cases c
  show String.mk _ = String.mk _
  simp [String.append]

theorem strFoldl_acc (l : List String) : ∀ acc : String,
    l.foldl (fun r s => r ++ s) acc = acc ++ String.join l := by
  induction l with
  | nil => intro acc; exact (string_append_empty acc).symm
  | cons s rest ih =>
      intro acc
      rw [List.foldl_cons, ih (acc ++ s)]
      rw [show String.join (s :: rest) = "" ++ s ++ String.join rest from by
        show List.foldl _ _ (s :: rest) = _
        rw [List.foldl_cons, ih ("" ++ s)]]
      rw [string_empty_append, string_append_assoc]

theorem join_cons (s : String) (l : List String) :
    String.join (s :: l) = s ++ String.join l := by
  show List.foldl _ _ (s :: l) = _
  rw [List.foldl_cons, strFoldl_acc, string_empty_append]

theorem strRep_eq_join (s : String) (n : Nat) :
    strRep s n = String.join (List.replicate n s) := by
  induction n with
  | zero => rfl
  | succ n ih =>
      rw [strRep, ih, List.replicate_succ, join_cons]

theorem mdFoldl_acc (l : List SheetData) : ∀ acc : String,
    l.foldl (fun acc sheet => acc ++ sheetMd sheet) acc = acc ++ toMarkdown l := by
  induction l with
  | nil => intro acc; exact (string_append_empty acc).symm
  | cons s rest ih =>
      intro acc
      rw [List.foldl_cons, ih (acc ++ sheetMd s)]
      rw [show toMarkdown (s :: rest) = "" ++ sheetMd s ++ toMarkdown rest from by
        rw [toMarkdown, List.foldl_cons, ih ("" ++ sheetMd s)]]
      rw [string_empty_append, string_append_assoc]

theorem colCount_ge_init (rows : List (List String)) : ∀ m0 : Nat,
    m0 ≤ rows.foldl (fun m r => if r.length > m then r.length else m) m0 := by
  induction rows with
  | nil => intro m0; simp
  | cons r rest ih =>
      intro m0
      rw [List.foldl_cons]
      refine le_trans ?_ (ih _)
      split <;> omega

theorem colCount_ge_mem (rows : List (List String)) : ∀ (m0 : Nat), ∀ r ∈ rows,
    r.length ≤ rows.foldl (fun m r => if r.length > m then r.length else m) m0 := by
  induction rows with
  | nil => intro m0 r hr; simp at hr
  | cons r0 rest ih =>
      intro m0 r hr
      rw [List.foldl_cons]
      rcases List.mem_cons.mp hr with hr | hr
      · subst hr
        refine le_trans ?_ (colCount_ge_init rest _)
        split <;> omega
      · exact ih _ r hr

theorem colCount_exists (rows : List (List String)) : ∀ m0 : Nat,
    rows.foldl (fun m r => if r.length > m then r.length else m) m0 = m0 ∨
    ∃ r ∈ rows, rows.foldl (fun m r => if r.length > m then r.length else m) m0 = r.length := by
  induction rows with
  | nil => intro m0; exact Or.inl rfl
  | cons r0 rest ih =>
      intro m0
      rw [List.foldl_cons]
      rcases ih (if r0.length > m0 then r0.length else m0) with h | ⟨r, hr, h⟩
      · by_cases hcond : r0.length > m0
        · rw [if_pos hcond] at h ⊢
          exact Or.inr ⟨r0, List.mem_cons_self _ _, h⟩
        · rw [if_neg hcond] at h ⊢
          exact Or.inl h
      · exact Or.inr ⟨r, List.mem_cons_of_mem _ hr, h⟩

theorem padTo_length (n : Nat) (row : List String) :
    (padTo n row).length = max n row.length := by
  rw [padTo]
  split <;> rename_i h
  · rw [List.length_append, List.length_replicate]
    omega
  · omega

/-- C9: Markdown writer structure: rowless sheets contribute nothing; a
non-empty sheet yields a level-2 heading, a header row equal to its first row
padded to the sheet-wide maximum row length, a separator of exactly that many
" --- " segments, and one body line per remaining row — a one-row sheet has
zero body rows. -/
theorem C9_markdown_writer_structure (sheets : List SheetData) :
    (∀ pre s post, sheets = pre ++ s :: post → s.rows = [] →
      toMarkdown sheets = toMarkdown (pre ++ post)) ∧
    (∀ s : SheetData, s.rows ≠ [] →
      sheetMd s = "## " ++ s.name ++ "\n\n"
        ++ mdRowLine (padTo (colCountOf s.rows) (s.rows.headD []))
        ++ mdSepLine (colCountOf s.rows)
        ++ String.join (((s.rows.map (padTo (colCountOf s.rows))).drop 1).map mdRowLine)
        ++ "\n") ∧
    (∀ s : SheetData, ∀ r ∈ s.rows,
      r.length ≤ colCountOf s.rows ∧
      (padTo (colCountOf s.rows) r).length = colCountOf s.rows) ∧
    (∀ n : Nat, mdSepLine n = "|" ++ String.join (List.replicate n " --- |") ++ "\n") ∧
    (∀ s : SheetData,
      (((s.rows.map (padTo (colCountOf s.rows))).drop 1).map mdRowLine).length
        = s.rows.length - 1) ∧
    (∀ s : SheetData, s.rows.length = 1 →
      String.join (((s.rows.map (padTo (colCountOf s.rows))).drop 1).map mdRowLine) = "") := by
  refine ⟨?_, ?_, ?_, ?_, ?_, ?_⟩
  · rintro pre s post rfl hempty
    rw [toMarkdown, List.foldl_append, List.foldl_cons]
    rw [show sheetMd s = "" from by rw [sheetMd, if_pos hempty]]
    rw [string_append_empty, ← List.foldl_append]
    rfl
  · intro s hne
    rw [sheetMd, if_neg hne]
    obtain ⟨r0, rest, hr⟩ := List.exists_cons_of_ne_nil hne
    rw [hr]
    simp only [List.map_cons, List.headD_cons]
  · intro s r hr
    have h1 : r.length ≤ colCountOf s.rows := colCount_ge_mem s.rows 0 r hr
    refine ⟨h1, ?_⟩
    rw [padTo_length]
    omega
  · intro n
    rw [mdSepLine, strRep_eq_join]
  · intro s
    rw [List.length_map, List.length_drop, List.length_map]
  · intro s h1
    obtain ⟨r0, rest, hr⟩ := List.exists_cons_of_ne_nil
      (by intro h; rw [h] at h1; simp at h1 : s.rows ≠ [])
    rw [hr] at h1 ⊢
    simp only [List.length_cons, Nat.add_eq_zero] at h1
    have : rest = [] := List.eq_nil_of_length_eq_zero (by omega)
    subst this
    rfl

/-- Witness for C9 (the skip-empty conjunct at a concrete sheet list). -/
theorem C9_markdown_writer_structure_witness :
    toMarkdown [⟨"A", []⟩] = toMarkdown ([] ++ []) :=
  (C9_markdown_writer_structure [⟨"A", []⟩]).1 [] ⟨"A", []⟩ [] rfl rfl

/-! ### Markdown table parser (`parseTable`, go/cmd/root.go lines 161–236) -/

/-- Character class of the separator regex `^[:\s-]*$`. -/
def sepClassChar (c : Char) : Bool := c = ':' || c = '-' || reSpace c

/-- The per-cell separator test: the trimmed cell matches `^[:\s-]*$` AND
contains at least one dash. -/
def sepCellOk (cellRaw : String) : Bool :=
  (goTrim cellRaw).data.all sepClassChar && containsCh (goTrim cellRaw) '-'

/-- A candidate row is a separator iff every raw cell passes `sepCellOk`
(the Go loop sets `isSeparator = false` and breaks on the first failure). -/
def isSeparatorRow (rawCells : List String) : Bool := rawCells.all sepCellOk

/-- Normalization of a data row to the expected column count: pad short rows
with empty strings, truncate long ones; inactive while `expectedCols` is 0. -/
def normalizeRow (expectedCols : Nat) (rowVals : List String) : List String :=
  if expectedCols > 0 then
    if rowVals.length < expectedCols then
      rowVals ++ List.replicate (expectedCols - rowVals.length) ""
    else if rowVals.length > expectedCols then
      rowVals.take expectedCols
    else rowVals
  else rowVals

/-- The local `rawCells` of the loop body, for an already-trimmed line `l`:
strip the outer pipes (`l[1 : len-1]`), trim, split on the interior pipes. -/
def lineCells (l : String) : List String :=
  strSplit '|' (goTrim ⟨(l.data.drop 1).dropLast⟩)

/-- The local `rowVals` of the loop body: each raw cell trimmed. -/
def lineRowVals (l : String) : List String := (lineCells l).map goTrim

/-- The updated `expectedCols` after a data row. -/
def nextCols (expectedCols : Nat) (rowVals : List String) : Nat :=
  if expectedCols = 0 ∧ rowVals.length > 0 then rowVals.length else expectedCols

/-- The `parseTable` line loop.  Per line: trim; skip blanks; a pipe-bounded
line is stripped of its outer pipes (`line[1 : len-1]` — on the one-character
line `"|"` that Go slice panics, modelled as `none`), trimmed, split on `|`;
separator rows are skipped; otherwise the trimmed cells form a data row, the
first data row fixes `expectedCols`, and the row is normalized and appended.
A non-table line stops parsing once at least one row has been accumulated. -/
def parseTableGo : Nat → List (List String) → List String → Option (List (List String))
  | _, rows, [] => some rows
  | expectedCols, rows, line :: rest =>
    if goTrim line = "" then parseTableGo expectedCols rows rest
    else if hasPref "|" (goTrim line) && hasSuff "|" (goTrim line) then
      if (goTrim line).length = 1 then none
      else
        if isSeparatorRow (lineCells (goTrim line)) then
          parseTableGo expectedCols rows rest
        else
          parseTableGo (nextCols expectedCols (lineRowVals (goTrim line)))
            (rows ++ [normalizeRow (nextCols expectedCols (lineRowVals (goTrim line)))
              (lineRowVals (goTrim line))])
            rest
    else if rows ≠ [] then some rows
    else parseTableGo expectedCols rows rest

/-- Model of `parseTable`: split the block on newlines and run the loop. -/
def parseTable (mdContent : String) : Option (List (List String)) :=
  parseTableGo 0 [] (strSplit '\n' mdContent)

/-! ### Separator detection (C3) and ragged normalization (C4) -/

/-- Counterexample to C3 as stated: the row `| --- | : |` has every raw cell
matching the dash/colon/whitespace pattern and at least one cell containing a
dash, yet the parser keeps it as the data row `["---", ":"]` instead of
discarding it (the code requires every cell to contain a dash). -/
theorem C3_claim_counterexample :
    ((["---", ":"] : List String).all
        (fun cell => (goTrim cell).data.all sepClassChar) = true) ∧
    ((["---", ":"] : List String).any
        (fun cell => containsCh (goTrim cell) '-') = true) ∧
    parseTable "| --- | : |" = some [["---", ":"]] :=
  ⟨by decide, by decide, by decide⟩

/-- C3 (amended): a candidate row is discarded as a separator iff every one of
its raw cells (trimmed) matches the dash/colon/whitespace-only pattern AND
itself contains a dash; consequently an all-whitespace row is kept as a data
row, and an all-`":-:"` row is discarded. -/
theorem C3_separator_detection :
    (∀ rawCells : List String, isSeparatorRow rawCells = true ↔
      ∀ cell ∈ rawCells, (goTrim cell).data.all sepClassChar = true ∧
        containsCh (goTrim cell) '-' = true) ∧
    parseTable "|   |" = some [[""]] ∧
    parseTable "| :-: | :-: |" = some [] := by
  refine ⟨?_, by decide, by decide⟩
  intro rawCells
  rw [isSeparatorRow, List.all_eq_true]
  constructor
  · intro h cell hc
    have h2 := h cell hc
    rw [sepCellOk, Bool.and_eq_true] at h2
    exact h2
  · intro h cell hc
    rw [sepCellOk, Bool.and_eq_true]
    exact h cell hc

/-- Witness for C3 at the concrete separator cell `":-:"`. -/
theorem C3_separator_detection_witness :
    (goTrim ":-:").data.all sepClassChar = true ∧
    containsCh (goTrim ":-:") '-' = true :=
  (C3_separator_detection.1 [":-:"]).mp (by decide) ":-:" (by decide)

theorem splitLC_ne_nil (sep : Char) (l : List Char) : splitLC sep l ≠ [] := by
  cases l with
  | nil => simp [splitLC]
  | cons a rest =>
      rw [splitLC]
      split <;> simp

theorem lineRowVals_pos (l : String) : 0 < (lineRowVals l).length := by
  rw [lineRowVals, lineCells, List.length_map, strSplit, List.length_map]
  exact List.length_pos.mpr (splitLC_ne_nil _ _)

theorem normalizeRow_length (e : Nat) (he : 0 < e) (r : List String) :
    (normalizeRow e r).length = e := by
  rw [normalizeRow, if_pos he]
  by_cases h1 : r.length < e
  · rw [if_pos h1, List.length_append, List.length_replicate]
    omega
  · rw [if_neg h1]
    by_cases h2 : r.length > e
    · rw [if_pos h2, List.length_take]
      omega
    · rw [if_neg h2]
      omega

theorem normalizeRow_self (r : List String) (he : 0 < r.length) :
    normalizeRow r.length r = r := by
  rw [normalizeRow, if_pos he, if_neg (lt_irrefl _), if_neg (lt_irrefl _)]

theorem parseTableGo_uniform (lines : List String) :
    ∀ (e : Nat) (rows rs : List (List String)),
    0 < e → (∀ r ∈ rows, r.length = e) →
    parseTableGo e rows lines = some rs → ∀ r ∈ rs, r.length = e := by
  induction lines with
  | nil =>
      intro e rows rs he hrows hp
      rw [parseTableGo] at hp
      cases Option.some_inj.mp hp
      exact hrows
  | cons line rest ih =>
      intro e rows rs he hrows hp
      rw [parseTableGo] at hp
      by_cases h1 : goTrim line = ""
      · rw [if_pos h1] at hp
        exact ih e rows rs he hrows hp
      · rw [if_neg h1] at hp
        by_cases h2 : (hasPref "|" (goTrim line) && hasSuff "|" (goTrim line)) = true
        · rw [if_pos h2] at hp
          by_cases h3 : (goTrim line).length = 1
          · rw [if_pos h3] at hp
            exact absurd hp (by simp)
          · rw [if_neg h3] at hp
            by_cases h4 : isSeparatorRow (lineCells (goTrim line)) = true
            · rw [if_pos h4] at hp
              exact ih e rows rs he hrows hp
            · rw [if_neg h4] at hp
              have hnx : nextCols e (lineRowVals (goTrim line)) = e := by
                rw [nextCols, if_neg]
                rintro ⟨h, _⟩
                omega
              rw [hnx] at hp
              refine ih e _ rs he ?_ hp
              intro r hr
              rcases List.mem_append.mp hr with hr | hr
              · exact hrows r hr
              · simp only [List.mem_singleton] at hr
                subst hr
                exact normalizeRow_length e he _
        · rw [if_neg h2] at hp
          by_cases h5 : rows ≠ []
          · rw [if_pos h5] at hp
            cases Option.some_inj.mp hp
            exact hrows
          · rw [if_neg h5] at hp
            exact ih e rows rs he hrows hp

theorem parseTableGo_zero (lines : List String) :
    ∀ rs : List (List String), parseTableGo 0 [] lines = some rs →
    ∀ r ∈ rs, r.length = (rs.headD []).length := by
  induction lines with
  | nil =>
      intro rs hp
      rw [parseTableGo] at hp
      cases Option.some_inj.mp hp
      simp
  | cons line rest ih =>
      intro rs hp
      rw [parseTableGo] at hp
      by_cases h1 : goTrim line = ""
      · rw [if_pos h1] at hp
        exact ih rs hp
      · rw [if_neg h1] at hp
        by_cases h2 : (hasPref "|" (goTrim line) && hasSuff "|" (goTrim line)) = true
        · rw [if_pos h2] at hp
          by_cases h3 : (goTrim line).length = 1
          · rw [if_pos h3] at hp
            exact absurd hp (by simp)
          · rw [if_neg h3] at hp
            by_cases h4 : isSeparatorRow (lineCells (goTrim line)) = true
            · rw [if_pos h4] at hp
              exact ih rs hp
            · rw [if_neg h4] at hp
              have hpos : 0 < (lineRowVals (goTrim line)).length := lineRowVals_pos _
              have hnx : nextCols 0 (lineRowVals (goTrim line))
                  = (lineRowVals (goTrim line)).length := by
                rw [nextCols, if_pos ⟨rfl, hpos⟩]
              rw [hnx] at hp
              have hall : ∀ r ∈ rs, r.length = (lineRowVals (goTrim line)).length := by
                refine parseTableGo_uniform rest _ _ rs hpos ?_ hp
                intro r hr
                simp only [List.nil_append, List.mem_singleton] at hr
                subst hr
                exact normalizeRow_length _ hpos _
              intro r hr
              rcases rs with _ | ⟨h0, t⟩
              · simp at hr
              · rw [List.headD_cons, hall r hr, hall h0 (List.mem_cons_self _ _)]
        · rw [if_neg h2] at hp
          rw [if_neg (by simp)] at hp
          exact ih rs hp

/-- C4: the first non-separator row fixes the block's expected column count,
and every subsequent row is normalized to exactly that count (short rows
right-padded with empty strings, long rows right-truncated): all emitted rows
share the first row's length, and the reference example normalizes as
specified. -/
theorem C4_ragged_normalization :
    parseTable "| a | b | c |\n| x | y |\n| p | q | r | s |"
        = some [["a", "b", "c"], ["x", "y", ""], ["p", "q", "r"]] ∧
    ∀ (content : String) (rs : List (List String)), parseTable content = some rs →
      ∀ r ∈ rs, r.length = (rs.headD []).length := by
  refine ⟨by decide, ?_⟩
  intro content rs hp
  exact parseTableGo_zero _ rs hp

/-- Witness for C4: the reference input, with the uniform-length consequence
instantiated on its output. -/
theorem C4_ragged_normalization_witness :
    ∀ r ∈ [["a", "b", "c"], ["x", "y", ""], ["p", "q", "r"]],
      r.length = (([["a", "b", "c"], ["x", "y", ""], ["p", "q", "r"]]
        : List (List String)).headD []).length :=
  C4_ragged_normalization.2 "| a | b | c |\n| x | y |\n| p | q | r | s |"
    [["a", "b", "c"], ["x", "y", ""], ["p", "q", "r"]] C4_ragged_normalization.1

/-! ### Split/join/trim infrastructure -/

theorem data_join (l : List String) :
    (String.join l).data = (l.map String.data).flatten := by
  induction l with
  | nil => rfl
  | cons s rest ih =>
      rw [join_cons, data_append, ih, List.map_cons, List.flatten_cons]

theorem splitLC_no_sep (c : Char) (l : List Char) (h : c ∉ l) : splitLC c l = [l] := by
  induction l with
  | nil => rfl
  | cons a rest ih =>
      rw [splitLC]
      have ha : ¬(a = c) := fun he => h (he ▸ List.mem_cons_self _ _)
      rw [if_neg ha, ih (fun hm => h (List.mem_cons_of_mem _ hm))]
      rfl

theorem splitLC_append_sep (c : Char) (l1 l2 : List Char) (h : c ∉ l1) :
    splitLC c (l1 ++ c :: l2) = l1 :: splitLC c l2 := by
  induction l1 with
  | nil =>
      rw [List.nil_append, splitLC, if_pos rfl]
  | cons a rest ih =>
      rw [List.cons_append, splitLC]
      have ha : ¬(a = c) := fun he => h (he ▸ List.mem_cons_self _ _)
      rw [if_neg ha, ih (fun hm => h (List.mem_cons_of_mem _ hm))]
      rfl

theorem splitLC_strJoin (c : Char) (T : List String) (hT : T ≠ [])
    (hc : ∀ t ∈ T, c ∉ t.data) :
    splitLC c (strJoin ⟨[c]⟩ T).data = T.map String.data := by
  induction T with
  | nil => exact absurd rfl hT
  | cons x rest ih =>
      cases rest with
      | nil =>
          rw [strJoin, List.map_cons, List.map_nil]
          exact splitLC_no_sep c x.data (hc x (List.mem_cons_self _ _))
      | cons y r =>
          rw [strJoin, data_append, data_append]
          have hseq : (⟨[c]⟩ : String).data = [c] := rfl
          rw [hseq]
          have he : x.data ++ [c] ++ (strJoin ⟨[c]⟩ (y :: r)).data
              = x.data ++ c :: (strJoin ⟨[c]⟩ (y :: r)).data := by
            rw [List.append_assoc]
            rfl
          rw [he, splitLC_append_sep c _ _ (hc x (List.mem_cons_self _ _))]
          rw [ih (by simp) (fun t ht => hc t (List.mem_cons_of_mem _ ht))]
          rfl

theorem strSplit_strJoin (c : Char) (T : List String) (hT : T ≠ [])
    (hc : ∀ t ∈ T, c ∉ t.data) :
    strSplit c (strJoin ⟨[c]⟩ T) = T := by
  rw [strSplit, splitLC_strJoin c T hT hc, List.map_map]
  have : (fun l => (⟨l⟩ : String)) ∘ String.data = id := by
    funext s
    cases s
    rfl
  rw [this, List.map_id]

theorem mem_data_strJoin (c : Char) (sep : String) (T : List String)
    (hsep : c ∉ sep.data) (hT : ∀ t ∈ T, c ∉ t.data) :
    c ∉ (strJoin sep T).data := by
  induction T with
  | nil => simp [strJoin]
  | cons x rest ih =>
      cases rest with
      | nil => exact hT x (List.mem_cons_self _ _)
      | cons y r =>
          rw [strJoin, data_append, data_append]
          intro hm
          rcases List.mem_append.mp hm with hm | hm
          · rcases List.mem_append.mp hm with hm | hm
            · exact hT x (List.mem_cons_self _ _) hm
            · exact hsep hm
          · exact ih (fun t ht => hT t (List.mem_cons_of_mem _ ht)) hm

theorem mem_data_strRep (c : Char) (s : String) (n : Nat) (hs : c ∉ s.data) :
    c ∉ (strRep s n).data := by
  induction n with
  | zero => simp [strRep]
  | succ n ih =>
      rw [strRep, data_append]
      intro hm
      rcases List.mem_append.mp hm with hm | hm
      · exact hs hm
      · exact ih hm

theorem dropWhile_replicate_append (p : Char → Bool) (a : Char) (hp : p a = true)
    (k : Nat) (l : List Char) :
    (List.replicate k a ++ l).dropWhile p = l.dropWhile p := by
  induction k with
  | zero => rfl
  | succ k ih =>
      rw [List.replicate_succ, List.cons_append, List.dropWhile_cons_of_pos hp]
      exact ih

theorem dropWhile_cons_neg (p : Char → Bool) (a : Char) (ha : p a = false)
    (l : List Char) : (a :: l).dropWhile p = a :: l :=
  List.dropWhile_cons_of_neg (by rw [ha]; simp)

/-- Trimming a string that starts with a pipe and ends with a pipe, followed by
trailing newlines, recovers the string itself. -/
theorem goTrim_pipes_newlines (J : String) (k : Nat)
    (hhead : ∃ d, J.data = '|' :: d) (hlast : ∃ d, J.data = d ++ ['|']) :
    goTrim ⟨J.data ++ List.replicate k '\n'⟩ = J := by
  obtain ⟨dh, hdh⟩ := hhead
  obtain ⟨dl, hdl⟩ := hlast
  rw [goTrim]
  have h1 : trimLC (J.data ++ List.replicate k '\n') = J.data := by
    have hL : trimLeftLC (J.data ++ List.replicate k '\n')
        = J.data ++ List.replicate k '\n' := by
      rw [trimLeftLC, hdh, List.cons_append]
      exact dropWhile_cons_neg goSpace '|' (by decide) _
    rw [trimLC, hL, trimRightLC]
    rw [List.reverse_append, List.reverse_replicate]
    rw [dropWhile_replicate_append goSpace '\n' (by decide)]
    have hrev : J.data.reverse = '|' :: dl.reverse := by
      rw [hdl, List.reverse_append]
      rfl
    rw [hrev, dropWhile_cons_neg goSpace '|' (by decide)]
    rw [← hrev, List.reverse_reverse]
  rw [show (⟨J.data ++ List.replicate k '\n'⟩ : String).data
      = J.data ++ List.replicate k '\n' from rfl]
  rw [h1]

/-! ### Trim/split commutation -/

theorem trimRightLC_concat_space (w : List Char) (a : Char) (ha : goSpace a = true) :
    trimRightLC (w ++ [a]) = trimRightLC w := by
  rw [trimRightLC, trimRightLC, List.reverse_append]
  have : (([a] : List Char).reverse ++ w.reverse).dropWhile goSpace
      = w.reverse.dropWhile goSpace := by
    show (a :: w.reverse).dropWhile goSpace = _
    exact List.dropWhile_cons_of_pos ha
  rw [this]

theorem trimRightLC_concat_nonspace (w : List Char) (a : Char) (ha : goSpace a = false) :
    trimRightLC (w ++ [a]) = w ++ [a] := by
  rw [trimRightLC, List.reverse_append]
  have : (([a] : List Char).reverse ++ w.reverse).dropWhile goSpace = a :: w.reverse := by
    show (a :: w.reverse).dropWhile goSpace = _
    exact dropWhile_cons_neg goSpace a ha _
  rw [this]
  rw [show (a :: w.reverse) = (w ++ [a]).reverse by rw [List.reverse_append]; rfl]
  rw [List.reverse_reverse]

theorem trimLC_cons_space (x : List Char) (a : Char) (ha : goSpace a = true) :
    trimLC (a :: x) = trimLC x := by
  rw [trimLC, trimLC, trimLeftLC, trimLeftLC, List.dropWhile_cons_of_pos ha]

theorem trimLC_concat_space (x : List Char) (a : Char) (ha : goSpace a = true) :
    trimLC (x ++ [a]) = trimLC x := by
  rw [trimLC, trimLC, trimLeftLC, trimLeftLC, List.dropWhile_append]
  by_cases he : (x.dropWhile goSpace).isEmpty
  · rw [if_pos he]
    have h1 : ([a] : List Char).dropWhile goSpace = [] := by
      show (a :: []).dropWhile goSpace = []
      rw [List.dropWhile_cons_of_pos ha]
      rfl
    rw [h1]
    rw [List.isEmpty_iff] at he
    rw [he]
  · rw [if_neg he]
    exact trimRightLC_concat_space _ a ha

theorem getLastD_congr (l : List (List Char)) (d1 d2 : List Char) (h : l ≠ []) :
    l.getLastD d1 = l.getLastD d2 := by
  cases l with
  | nil => exact absurd rfl h
  | cons a rest => rw [List.getLastD_cons, List.getLastD_cons]

theorem splitLC_concat (c a : Char) (ha : ¬(a = c)) : ∀ w : List Char,
    splitLC c (w ++ [a])
      = (splitLC c w).dropLast ++ [(splitLC c w).getLastD [] ++ [a]] := by
  intro w
  induction w with
  | nil =>
      rw [List.nil_append]
      simp only [splitLC, if_neg ha]
      rfl
  | cons b w' ih =>
      have hS := splitLC_ne_nil c w'
      rw [List.cons_append]
      by_cases hb : b = c
      · rw [show splitLC c (b :: (w' ++ [a])) = [] :: splitLC c (w' ++ [a]) from by
          simp only [splitLC, if_pos hb]]
        rw [ih]
        rw [show splitLC c (b :: w') = [] :: splitLC c w' from by
          simp only [splitLC, if_pos hb]]
        cases hsp : splitLC c w' with
        | nil => exact absurd hsp hS
        | cons s0 S' => rfl
      · rw [show splitLC c (b :: (w' ++ [a]))
            = (b :: (splitLC c (w' ++ [a])).headD []) :: (splitLC c (w' ++ [a])).tail from by
          simp only [splitLC, if_neg hb]]
        rw [ih]
        rw [show splitLC c (b :: w')
            = (b :: (splitLC c w').headD []) :: (splitLC c w').tail from by
          simp only [splitLC, if_neg hb]]
        cases hsp : splitLC c w' with
        | nil => exact absurd hsp hS
        | cons s0 S' =>
            cases S' with
            | nil => rfl
            | cons s1 S'' => rfl

theorem splitTrimL (c : Char) (hc : goSpace c = false) : ∀ w : List Char,
    (splitLC c (trimLeftLC w)).map trimLC = (splitLC c w).map trimLC := by
  intro w
  induction w with
  | nil => rfl
  | cons a rest ih =>
      by_cases ha : goSpace a = true
      · have hl : trimLeftLC (a :: rest) = trimLeftLC rest := by
          rw [trimLeftLC, trimLeftLC, List.dropWhile_cons_of_pos ha]
        have hac : ¬(a = c) := fun he => by rw [he, hc] at ha; cases ha
        rw [hl, ih]
        rw [show splitLC c (a :: rest)
            = (a :: (splitLC c rest).headD []) :: (splitLC c rest).tail from by
          simp only [splitLC, if_neg hac]]
        cases hsp : splitLC c rest with
        | nil => exact absurd hsp (splitLC_ne_nil c rest)
        | cons s0 S' =>
            simp only [List.headD_cons, List.tail_cons, List.map_cons]
            rw [trimLC_cons_space s0 a ha]
      · have hl : trimLeftLC (a :: rest) = a :: rest := by
          rw [trimLeftLC]
          exact dropWhile_cons_neg goSpace a (by simpa using ha) _
        rw [hl]

theorem getLastD_eq_getLast (l : List (List Char)) (h : l ≠ []) :
    l.getLastD [] = l.getLast h := by
  induction l with
  | nil => exact absurd rfl h
  | cons a rest ih =>
      cases rest with
      | nil => rfl
      | cons b r =>
          rw [List.getLastD_cons, getLastD_congr _ a [] (by simp), ih (by simp)]
          exact (List.getLast_cons (by simp)).symm

theorem splitTrimR (c : Char) (hc : goSpace c = false) : ∀ w : List Char,
    (splitLC c (trimRightLC w)).map trimLC = (splitLC c w).map trimLC := by
  intro w
  induction w using List.reverseRecOn with
  | nil => rfl
  | append_singleton w' a ih =>
      by_cases ha : goSpace a = true
      · have hac : ¬(a = c) := fun he => by rw [he, hc] at ha; cases ha
        rw [trimRightLC_concat_space w' a ha, ih]
        rw [splitLC_concat c a hac w']
        have hS := splitLC_ne_nil c w'
        conv_lhs => rw [← List.dropLast_concat_getLast hS]
        rw [List.map_append, List.map_append]
        simp only [List.map_cons, List.map_nil]
        rw [trimLC_concat_space _ a ha]
        rw [getLastD_eq_getLast (splitLC c w') hS]
      · rw [trimRightLC_concat_nonspace w' a (by simpa using ha)]

theorem splitTrim (c : Char) (hc : goSpace c = false) (w : List Char) :
    (splitLC c (trimLC w)).map trimLC = (splitLC c w).map trimLC := by
  rw [trimLC, splitTrimR c hc (trimLeftLC w), splitTrimL c hc w]

/-- Trimming the one-space padding around a trim-invariant cell recovers it. -/
theorem trimLC_pad1 (cd : List Char) (h : trimLC cd = cd) :
    trimLC ((' ' :: cd) ++ [' ']) = cd := by
  rw [show ((' ' :: cd) ++ [' ']) = ' ' :: (cd ++ [' ']) from rfl]
  rw [trimLC_cons_space _ ' ' (by decide), trimLC_concat_space _ ' ' (by decide), h]

/-! ### Markdown reader (`ReadMarkdown`, go/cmd/root.go lines 95–158)

The heading regex `(?m)^## ([^\n]+)\n\n` is modelled line-wise over the
newline-split of the document: a match is a line starting with `"## "` whose
capture (the rest of the line) is non-empty, followed by an empty line that is
itself terminated by a newline (i.e. a further line exists).  `FindAll` and
`Split` on the same regex are modelled together by `findBlocks`, which returns
the text before the first match and, per match, the captured name and the
lines strictly between this match and the next. -/

def findBlocks : List String → List String × List (String × List String)
  | [] => ([], [])
  | [l] => ([l], [])
  | l :: l2 :: rest =>
    if hasPref "## " l && decide (3 < l.length) && (l2 == "") && !rest.isEmpty then
      ([], (⟨l.data.drop 3⟩, (findBlocks rest).1) :: (findBlocks rest).2)
    else
      (l :: (findBlocks (l2 :: rest)).1, (findBlocks (l2 :: rest)).2)

/-- Model of `strings.ReplaceAll name "/" "-"`. -/
def replaceSlash (s : String) : String :=
  ⟨s.data.map (fun c => if c = '/' then '-' else c)⟩

/-- Per-heading block processing: trim the block, skip empty blocks, parse the
table, keep non-empty tables under the sanitized trimmed name. -/
def processBlocks : List (String × List String) → Option (List SheetData)
  | [] => some []
  | (nm, blk) :: rest =>
    if goTrim (strJoin "\n" blk) = "" then processBlocks rest
    else do
      let tableData ← parseTable (goTrim (strJoin "\n" blk))
      let tail ← processBlocks rest
      pure (if tableData.isEmpty then tail
        else ⟨replaceSlash (goTrim nm), tableData⟩ :: tail)

/-- Model of `ReadMarkdown`: with no headings the whole text is one unnamed
sheet (kept only if its table is non-empty); otherwise each heading's block is
processed in order. -/
def readMarkdown (content : String) : Option (List SheetData) :=
  if ((findBlocks (strSplit '\n' content)).2).isEmpty then do
    let tableData ← parseTable content
    pure (if tableData.isEmpty then [] else [⟨"Sheet1", tableData⟩])
  else processBlocks (findBlocks (strSplit '\n' content)).2

/-- Counterexample to C6 as stated: a sheet list containing a sheet with zero
rows round-trips to an empty sheet list — the sheet name `"A"` is not
preserved. -/
theorem C6_claim_counterexample :
    readMarkdown (toMarkdown [⟨"A", []⟩]) = some [] ∧
    some ([] : List SheetData) ≠ some [(⟨"A", []⟩ : SheetData)] :=
  ⟨by decide, by decide⟩

/-! ### Line-level facts about the writer's emitted table lines -/

theorem str_ext (s t : String) (h : s.data = t.data) : s = t := by
  cases s
  cases t
  exact congrArg String.mk h

/-- The header/body line shape, without its terminating newline. -/
def rowLineStr (row : List String) : String := "| " ++ strJoin " | " row ++ " |"

/-- The separator line shape, without its terminating newline. -/
def sepLineStr (n : Nat) : String := "|" ++ strRep " --- |" n

theorem mdRowLine_eq (row : List String) : mdRowLine row = rowLineStr row ++ "\n" := by
  apply str_ext
  rw [mdRowLine, rowLineStr]
  simp only [data_append]
  simp [List.append_assoc]

theorem mdSepLine_eq (n : Nat) : mdSepLine n = sepLineStr n ++ "\n" := rfl

theorem rowLineStr_data (cells : List String) :
    (rowLineStr cells).data = (['|', ' '] ++ (strJoin " | " cells).data) ++ [' ', '|'] := by
  rw [rowLineStr, data_append, data_append]

theorem rowLineStr_head (cells : List String) :
    ∃ d, (rowLineStr cells).data = '|' :: d := by
  rw [rowLineStr_data]
  exact ⟨_, rfl⟩

theorem rowLineStr_last (cells : List String) :
    ∃ d, (rowLineStr cells).data = d ++ ['|'] := by
  rw [rowLineStr_data]
  refine ⟨(['|', ' '] ++ (strJoin " | " cells).data) ++ [' '], ?_⟩
  simp [List.append_assoc]

theorem goTrim_self_of_pipes (J : String) (hh : ∃ d, J.data = '|' :: d)
    (hl : ∃ d, J.data = d ++ ['|']) : goTrim J = J := by
  have h := goTrim_pipes_newlines J 0 hh hl
  rwa [show (⟨J.data ++ List.replicate 0 '\n'⟩ : String) = J from by
    apply str_ext
    simp] at h

theorem goTrim_rowLineStr (cells : List String) :
    goTrim (rowLineStr cells) = rowLineStr cells :=
  goTrim_self_of_pipes _ (rowLineStr_head cells) (rowLineStr_last cells)

theorem sepLineStr_data (n : Nat) :
    (sepLineStr n).data = '|' :: (strRep " --- |" n).data := by
  rw [sepLineStr, data_append]
  rfl

theorem strRep_ends_pipe (n : Nat) : ∀ A : String, (∃ d, A.data = d ++ ['|']) →
    ∃ d, (A ++ strRep " --- |" n).data = d ++ ['|'] := by
  induction n with
  | zero =>
      intro A hA
      rw [strRep, data_append]
      simpa using hA
  | succ n ih =>
      intro A hA
      rw [strRep, ← string_append_assoc]
      refine ih (A ++ " --- |") ?_
      rw [data_append]
      obtain ⟨d, hd⟩ := hA
      refine ⟨A.data ++ [' ', '-', '-', '-', ' '], ?_⟩
      simp [List.append_assoc]

theorem sepLineStr_head (n : Nat) : ∃ d, (sepLineStr n).data = '|' :: d := by
  rw [sepLineStr_data]
  exact ⟨_, rfl⟩

theorem sepLineStr_last (n : Nat) : ∃ d, (sepLineStr n).data = d ++ ['|'] := by
  rw [sepLineStr]
  exact strRep_ends_pipe n "|" ⟨[], rfl⟩

theorem goTrim_sepLineStr (n : Nat) :
    goTrim (sepLineStr n) = sepLineStr n :=
  goTrim_self_of_pipes _ (sepLineStr_head n) (sepLineStr_last n)

theorem hasPref_pipe (L : String) (h : ∃ d, L.data = '|' :: d) :
    hasPref "|" L = true := by
  obtain ⟨d, hd⟩ := h
  rw [hasPref, hd]
  have h1 : ("|" : String).data = ['|'] := by decide
  rw [h1]
  simp [List.isPrefixOf]

theorem hasSuff_pipe (L : String) (h : ∃ d, L.data = d ++ ['|']) :
    hasSuff "|" L = true := by
  obtain ⟨d, hd⟩ := h
  rw [hasSuff, hd]
  show List.isPrefixOf (['|'].reverse) ((d ++ ['|']).reverse) = true
  rw [List.reverse_append]
  simp [List.isPrefixOf]

theorem list_all_congr {α} (f g : α → Bool) :
    ∀ l : List α, (∀ x ∈ l, f x = g x) → l.all f = l.all g := by
  intro l
  induction l with
  | nil => intro _; rfl
  | cons a r ih =>
      intro h
      rw [List.all_cons, List.all_cons, h a (by simp), ih (fun x hx => h x (by simp [hx]))]

theorem padJoin_data : ∀ cells : List String, cells ≠ [] →
    (' ' :: (strJoin " | " cells).data) ++ [' ']
      = (strJoin "|" (cells.map (fun v => " " ++ v ++ " "))).data := by
  intro cells
  induction cells with
  | nil => intro h; exact absurd rfl h
  | cons v rest ih =>
      intro _
      cases rest with
      | nil => simp [strJoin, data_append]
      | cons v2 r =>
          have h2 := ih (by simp)
          simp only [List.map_cons] at h2 ⊢
          rw [show strJoin " | " (v :: v2 :: r) = v ++ " | " ++ strJoin " | " (v2 :: r)
              from rfl]
          rw [show strJoin "|" ((" " ++ v ++ " ") :: (" " ++ v2 ++ " ")
                :: r.map (fun v => " " ++ v ++ " "))
              = (" " ++ v ++ " ") ++ "|"
                ++ strJoin "|" ((" " ++ v2 ++ " ") :: r.map (fun v => " " ++ v ++ " "))
              from rfl]
          simp only [data_append, ← h2]
          simp [List.append_assoc]

theorem rowLineStr_interior (cells : List String) :
    ((rowLineStr cells).data.drop 1).dropLast
      = (' ' :: (strJoin " | " cells).data) ++ [' '] := by
  have h : (rowLineStr cells).data
      = '|' :: (((' ' :: (strJoin " | " cells).data) ++ [' ']) ++ ['|']) := by
    rw [rowLineStr_data]
    simp [List.append_assoc]
  rw [h]
  show ((((' ' :: (strJoin " | " cells).data) ++ [' ']) ++ ['|']).dropLast) = _
  exact List.dropLast_concat

theorem trimLC_data_of_goTrim (v : String) (h : goTrim v = v) :
    trimLC v.data = v.data :=
  congrArg String.data h

theorem pad1_pipe_free (v : String) (h : '|' ∉ v.data) :
    '|' ∉ (" " ++ v ++ " ").data := by
  rw [data_append, data_append]
  intro hm
  rcases List.mem_append.1 hm with hm1 | hm2
  · rcases List.mem_append.1 hm1 with hm3 | hm4
    · simp at hm3
    · exact h hm4
  · simp at hm2

theorem lineRowVals_eq (L : String) :
    lineRowVals L
      = (splitLC '|' (trimLC ((L.data.drop 1).dropLast))).map
          (fun p => (⟨trimLC p⟩ : String)) := by
  rw [lineRowVals, lineCells, strSplit, List.map_map]
  rfl

theorem lineRowVals_rowLineStr (cells : List String) (hne : cells ≠ [])
    (hok : ∀ v ∈ cells, goTrim v = v ∧ '|' ∉ v.data) :
    lineRowVals (rowLineStr cells) = cells := by
  rw [lineRowVals_eq, rowLineStr_interior]
  rw [padJoin_data cells hne]
  have hpipe : ("|" : String) = (⟨['|']⟩ : String) := by decide
  have hsplit : splitLC '|' (strJoin "|" (cells.map (fun v => " " ++ v ++ " "))).data
      = (cells.map (fun v => " " ++ v ++ " ")).map String.data := by
    have hJ := splitLC_strJoin '|' (cells.map (fun v => " " ++ v ++ " "))
      (by simpa using hne)
      (by
        intro t ht
        rcases List.mem_map.1 ht with ⟨v, hv, rfl⟩
        exact pad1_pipe_free v (hok v hv).2)
    rwa [← hpipe] at hJ
  have hcomm : (splitLC '|' (trimLC ((strJoin "|"
        (cells.map (fun v => " " ++ v ++ " "))).data))).map
          (fun p => (⟨trimLC p⟩ : String))
      = (splitLC '|' ((strJoin "|"
        (cells.map (fun v => " " ++ v ++ " "))).data)).map
          (fun p => (⟨trimLC p⟩ : String)) := by
    have hmk : (fun p => (⟨trimLC p⟩ : String))
        = (fun l => (⟨l⟩ : String)) ∘ trimLC := rfl
    rw [hmk, ← List.map_map, ← List.map_map]
    rw [splitTrim '|' (by decide)]
  rw [hcomm, hsplit, List.map_map, List.map_map]
  have : ((fun p => (⟨trimLC p⟩ : String)) ∘ String.data) ∘ (fun v => " " ++ v ++ " ")
      = fun v : String => (⟨trimLC (" " ++ v ++ " ").data⟩ : String) := rfl
  rw [this]
  have hmapid : cells.map (fun v : String => (⟨trimLC (" " ++ v ++ " ").data⟩ : String))
      = cells.map id := by
    apply List.map_congr_left
    intro v hv
    have hdata : (" " ++ v ++ " ").data = (' ' :: v.data) ++ [' '] := by
      rw [data_append, data_append]
      rfl
    show (⟨trimLC (" " ++ v ++ " ").data⟩ : String) = v
    rw [hdata, trimLC_pad1 v.data (trimLC_data_of_goTrim v (hok v hv).1)]
  rw [hmapid, List.map_id]

theorem isSeparatorRow_eq_all (L : String) :
    isSeparatorRow (lineCells L)
      = (lineRowVals L).all (fun v => v.data.all sepClassChar && containsCh v '-') := by
  rw [isSeparatorRow, lineRowVals, List.all_map]
  rfl

theorem strRep_data_length (s : String) (n : Nat) :
    (strRep s n).data.length = n * s.data.length := by
  induction n with
  | zero => simp [strRep]
  | succ n ih =>
      rw [strRep, data_append, List.length_append, ih]
      ring

theorem string_length_data (s : String) : s.length = s.data.length := by
  cases s
  rfl

theorem strRep_dash_join : ∀ n : Nat,
    strRep " --- |" (n + 1) = strJoin "|" (List.replicate (n + 1) " --- ") ++ "|" := by
  intro n
  induction n with
  | zero => decide
  | succ n ih =>
      have e1 : List.replicate (n + 1 + 1) " --- "
          = " --- " :: List.replicate (n + 1) " --- " := rfl
      have e2 : strJoin "|" (" --- " :: List.replicate (n + 1) " --- ")
          = " --- " ++ "|" ++ strJoin "|" (List.replicate (n + 1) " --- ") := by
        rw [List.replicate_succ]
        rfl
      rw [strRep, ih, e1, e2]
      apply str_ext
      simp [data_append, List.append_assoc]

theorem sepLineStr_interior (n : Nat) :
    ((sepLineStr (n + 1)).data.drop 1).dropLast
      = (strJoin "|" (List.replicate (n + 1) " --- ")).data := by
  have h : (sepLineStr (n + 1)).data
      = '|' :: ((strJoin "|" (List.replicate (n + 1) " --- ")).data ++ ['|']) := by
    rw [sepLineStr_data, strRep_dash_join n, data_append]
  rw [h]
  show ((strJoin "|" (List.replicate (n + 1) " --- ")).data ++ ['|']).dropLast = _
  exact List.dropLast_concat

theorem lineRowVals_sepLineStr (n : Nat) :
    lineRowVals (sepLineStr (n + 1)) = List.replicate (n + 1) "---" := by
  rw [lineRowVals_eq, sepLineStr_interior]
  have hpipe : ("|" : String) = (⟨['|']⟩ : String) := by decide
  have hsplit : splitLC '|' (strJoin "|" (List.replicate (n + 1) " --- ")).data
      = (List.replicate (n + 1) (" --- " : String)).map String.data := by
    have hJ := splitLC_strJoin '|' (List.replicate (n + 1) " --- ")
      (by simp)
      (by
        intro t ht
        rw [List.eq_of_mem_replicate ht]
        decide)
    rwa [← hpipe] at hJ
  have hcomm : (splitLC '|' (trimLC ((strJoin "|"
        (List.replicate (n + 1) " --- ")).data))).map
          (fun p => (⟨trimLC p⟩ : String))
      = (splitLC '|' ((strJoin "|"
        (List.replicate (n + 1) " --- ")).data)).map
          (fun p => (⟨trimLC p⟩ : String)) := by
    have hmk : (fun p => (⟨trimLC p⟩ : String))
        = (fun l => (⟨l⟩ : String)) ∘ trimLC := rfl
    rw [hmk, ← List.map_map, ← List.map_map]
    rw [splitTrim '|' (by decide)]
  rw [hcomm, hsplit, List.map_map, List.map_replicate]
  rw [show ((fun p => (⟨trimLC p⟩ : String)) ∘ String.data) (" --- " : String)
      = ("---" : String) from by decide]

theorem sepLineStr_is_separator (n : Nat) :
    isSeparatorRow (lineCells (sepLineStr (n + 1))) = true := by
  rw [show isSeparatorRow (lineCells (sepLineStr (n + 1)))
      = (lineRowVals (sepLineStr (n + 1))).all
          (fun v => v.data.all sepClassChar && containsCh v '-')
    from isSeparatorRow_eq_all _]
  rw [lineRowVals_sepLineStr]
  simp only [List.all_eq_true]
  intro v hv
  rw [List.eq_of_mem_replicate hv]
  decide

theorem rowLineStr_ne_empty (cells : List String) : rowLineStr cells ≠ "" := by
  intro h
  have h2 := congrArg String.data h
  rw [rowLineStr_data] at h2
  simp at h2

theorem sepLineStr_ne_empty (n : Nat) : sepLineStr n ≠ "" := by
  intro h
  have h2 := congrArg String.data h
  rw [sepLineStr_data] at h2
  simp at h2

theorem rowLineStr_length_ne_one (cells : List String) :
    (rowLineStr cells).length ≠ 1 := by
  rw [string_length_data, rowLineStr_data]
  simp [List.length_append]

theorem sepLineStr_length_ne_one (n : Nat) : (sepLineStr (n + 1)).length ≠ 1 := by
  rw [string_length_data, sepLineStr_data, List.length_cons, strRep_data_length]
  have h6 : (" --- |" : String).data.length = 6 := by decide
  rw [h6]
  omega

/-! ### Stepping `parseTableGo` over emitted lines -/

theorem parseTableGo_data_line (cells : List String) (hne : cells ≠ [])
    (hok : ∀ v ∈ cells, goTrim v = v ∧ '|' ∉ v.data)
    (hsep : cells.all (fun v => v.data.all sepClassChar && containsCh v '-') = false)
    (ec : Nat) (rows : List (List String)) (rest : List String) :
    parseTableGo ec rows (rowLineStr cells :: rest)
      = parseTableGo (nextCols ec cells) (rows ++ [normalizeRow (nextCols ec cells) cells])
          rest := by
  have hsep2 : isSeparatorRow (lineCells (rowLineStr cells)) = false := by
    rw [isSeparatorRow_eq_all, lineRowVals_rowLineStr cells hne hok, hsep]
  rw [parseTableGo, goTrim_rowLineStr, if_neg (rowLineStr_ne_empty cells),
    hasPref_pipe _ (rowLineStr_head cells), hasSuff_pipe _ (rowLineStr_last cells),
    if_pos (show (true && true) = true by decide),
    if_neg (rowLineStr_length_ne_one cells),
    if_neg (show ¬(isSeparatorRow (lineCells (rowLineStr cells)) = true) by
      simp [hsep2]),
    lineRowVals_rowLineStr cells hne hok]

theorem parseTableGo_sep_line (n : Nat) (ec : Nat) (rows : List (List String))
    (rest : List String) :
    parseTableGo ec rows (sepLineStr (n + 1) :: rest) = parseTableGo ec rows rest := by
  rw [parseTableGo, goTrim_sepLineStr, if_neg (sepLineStr_ne_empty (n + 1)),
    hasPref_pipe _ (sepLineStr_head (n + 1)), hasSuff_pipe _ (sepLineStr_last (n + 1)),
    if_pos (show (true && true) = true by decide),
    if_neg (sepLineStr_length_ne_one n),
    if_pos (sepLineStr_is_separator n)]

theorem parseTableGo_body (cc : Nat) (hcc : 0 < cc) :
    ∀ (body : List (List String)) (acc : List (List String)),
      (∀ r ∈ body, r.length = cc ∧ (∀ v ∈ r, goTrim v = v ∧ '|' ∉ v.data) ∧
        r.all (fun v => v.data.all sepClassChar && containsCh v '-') = false) →
      parseTableGo cc acc (body.map rowLineStr) = some (acc ++ body) := by
  intro body
  induction body with
  | nil =>
      intro acc _
      simp [parseTableGo]
  | cons b bs ih =>
      intro acc h
      obtain ⟨hlen, hcells, hsep⟩ := h b (by simp)
      have hbne : b ≠ [] := by
        intro hb
        rw [hb] at hlen
        simp at hlen
        omega
      rw [List.map_cons,
        parseTableGo_data_line b hbne hcells hsep cc acc (bs.map rowLineStr)]
      have hnc : nextCols cc b = cc := by
        rw [nextCols, if_neg]
        intro hx
        exact absurd hx.1 (by omega)
      have hnorm : normalizeRow cc b = b := by
        rw [normalizeRow, if_pos hcc, if_neg (by omega), if_neg (by omega)]
      rw [hnc, hnorm, ih (acc ++ [b]) (fun r hr => h r (by simp [hr]))]
      simp

theorem mem_padTo (n : Nat) (row : List String) (v : String) (h : v ∈ padTo n row) :
    v ∈ row ∨ v = "" := by
  rw [padTo] at h
  by_cases hlt : row.length < n
  · rw [if_pos hlt] at h
    rcases List.mem_append.1 h with h1 | h2
    · exact Or.inl h1
    · exact Or.inr (List.eq_of_mem_replicate h2)
  · rw [if_neg hlt] at h
    exact Or.inl h

/-- The table lines of one sheet — header line, separator line, body lines — as
written by `sheetMd` (each line without its terminating newline). -/
def tableLinesOf (s : SheetData) : List String :=
  rowLineStr ((s.rows.map (padTo (colCountOf s.rows))).headD [])
    :: sepLineStr (colCountOf s.rows)
    :: ((s.rows.map (padTo (colCountOf s.rows))).drop 1).map rowLineStr

theorem parseTableGo_tableLines (s : SheetData)
    (hrows : s.rows ≠ []) (hcc : 0 < colCountOf s.rows)
    (hcells : ∀ row ∈ s.rows, ∀ v ∈ row, goTrim v = v ∧ '|' ∉ v.data)
    (hsep : ∀ row ∈ s.rows, isSeparatorRow (padTo (colCountOf s.rows) row) = false) :
    parseTableGo 0 [] (tableLinesOf s)
      = some (s.rows.map (padTo (colCountOf s.rows))) := by
  obtain ⟨r, rs, hr⟩ : ∃ r rs, s.rows = r :: rs := by
    cases hx : s.rows with
    | nil => exact absurd hx hrows
    | cons a l => exact ⟨a, l, rfl⟩
  have hle : ∀ row ∈ s.rows, row.length ≤ colCountOf s.rows := fun row hrow =>
    colCount_ge_mem s.rows 0 row hrow
  have hplen : ∀ row ∈ s.rows, (padTo (colCountOf s.rows) row).length
      = colCountOf s.rows := by
    intro row hrow
    rw [padTo_length]
    exact Nat.max_eq_left (hle row hrow)
  have hpcells : ∀ row ∈ s.rows, ∀ v ∈ padTo (colCountOf s.rows) row,
      goTrim v = v ∧ '|' ∉ v.data := by
    intro row hrow v hv
    rcases mem_padTo _ _ _ hv with hvr | hve
    · exact hcells row hrow v hvr
    · rw [hve]
      exact ⟨by decide, by decide⟩
  have hpsep : ∀ row ∈ s.rows, (padTo (colCountOf s.rows) row).all
      (fun v => v.data.all sepClassChar && containsCh v '-') = false := by
    intro row hrow
    have hcongr := list_all_congr
      (fun v => v.data.all sepClassChar && containsCh v '-') sepCellOk
      (padTo (colCountOf s.rows) row)
      (by
        intro v hv
        rw [sepCellOk, (hpcells row hrow v hv).1])
    rw [hcongr]
    exact hsep row hrow
  have hpne : ∀ row ∈ s.rows, padTo (colCountOf s.rows) row ≠ [] := by
    intro row hrow hq
    have := hplen row hrow
    rw [hq] at this
    simp at this
    omega
  obtain ⟨m, hm⟩ : ∃ m, colCountOf s.rows = m + 1 := by
    cases hc : colCountOf s.rows with
    | zero => rw [hc] at hcc; omega
    | succ k => exact ⟨k, rfl⟩
  have hrmem : r ∈ s.rows := by rw [hr]; simp
  have htl : tableLinesOf s
      = rowLineStr (padTo (colCountOf s.rows) r) :: sepLineStr (colCountOf s.rows)
          :: (rs.map (padTo (colCountOf s.rows))).map rowLineStr := by
    rw [tableLinesOf, hr]
    simp
  rw [htl,
    parseTableGo_data_line (padTo (colCountOf s.rows) r)
      (hpne r hrmem) (hpcells r hrmem) (hpsep r hrmem) 0 [] _]
  have hnc : nextCols 0 (padTo (colCountOf s.rows) r) = colCountOf s.rows := by
    rw [nextCols, if_pos]
    · exact hplen r hrmem
    · constructor
      · rfl
      · rw [hplen r hrmem]
        omega
  have hnorm : normalizeRow (colCountOf s.rows) (padTo (colCountOf s.rows) r)
      = padTo (colCountOf s.rows) r := by
    have hl := hplen r hrmem
    rw [normalizeRow, if_pos hcc, if_neg (by omega), if_neg (by omega)]
  rw [hnc, hnorm, hm, parseTableGo_sep_line m, ← hm]
  simp only [List.nil_append]
  rw [parseTableGo_body (colCountOf s.rows) hcc (rs.map (padTo (colCountOf s.rows)))
      [padTo (colCountOf s.rows) r]
      (by
        intro p hp
        rcases List.mem_map.1 hp with ⟨row, hrow, rfl⟩
        have hrow2 : row ∈ s.rows := by rw [hr]; simp [hrow]
        exact ⟨hplen row hrow2, hpcells row hrow2, hpsep row hrow2⟩)]
  rw [hr]
  simp

/-! ### Joining and re-splitting the block lines -/

theorem strJoin_concat (sep x : String) : ∀ T : List String, T ≠ [] →
    strJoin sep (T ++ [x]) = strJoin sep T ++ sep ++ x := by
  intro T
  induction T with
  | nil => intro h; exact absurd rfl h
  | cons t r ih =>
      intro _
      cases r with
      | nil => rfl
      | cons t2 rr =>
          have h1 : strJoin sep ((t :: t2 :: rr) ++ [x])
              = t ++ sep ++ strJoin sep ((t2 :: rr) ++ [x]) := rfl
          rw [h1, ih (by simp),
            show strJoin sep (t :: t2 :: rr) = t ++ sep ++ strJoin sep (t2 :: rr) from rfl]
          apply str_ext
          simp [data_append, List.append_assoc]

theorem strJoin_newline_trailing (T : List String) (hT : T ≠ []) : ∀ k : Nat,
    (strJoin "\n" (T ++ List.replicate k "")).data
      = (strJoin "\n" T).data ++ List.replicate k '\n' := by
  intro k
  induction k with
  | zero => simp
  | succ k ih =>
      have e1 : T ++ List.replicate (k + 1) "" = (T ++ List.replicate k "") ++ [""] := by
        rw [List.replicate_succ', ← List.append_assoc]
      rw [e1, strJoin_concat "\n" "" (T ++ List.replicate k "")
        (fun hq => hT (List.append_eq_nil.1 hq).1)]
      rw [data_append, data_append, ih]
      simp [List.replicate_succ', List.append_assoc]

theorem strJoin_head_pipe (T : List String) (hT : T ≠ [])
    (h : ∀ t ∈ T, ∃ d, t.data = '|' :: d) :
    ∃ d, (strJoin "\n" T).data = '|' :: d := by
  cases T with
  | nil => exact absurd rfl hT
  | cons t r =>
      obtain ⟨d, hd⟩ := h t (by simp)
      cases r with
      | nil => exact ⟨d, hd⟩
      | cons t2 rr =>
          refine ⟨d ++ ('\n' :: (strJoin "\n" (t2 :: rr)).data), ?_⟩
          rw [show strJoin "\n" (t :: t2 :: rr)
              = t ++ "\n" ++ strJoin "\n" (t2 :: rr) from rfl,
            data_append, data_append, hd]
          simp

theorem strJoin_last_pipe : ∀ T : List String, T ≠ [] →
    (∀ t ∈ T, ∃ d, t.data = d ++ ['|']) →
    ∃ d, (strJoin "\n" T).data = d ++ ['|'] := by
  intro T
  induction T with
  | nil => intro h _; exact absurd rfl h
  | cons t r ih =>
      intro _ hp
      cases r with
      | nil => exact hp t (by simp)
      | cons t2 rr =>
          obtain ⟨d, hd⟩ := ih (by simp) (fun x hx => hp x (by simp [hx]))
          refine ⟨(t ++ "\n").data ++ d, ?_⟩
          rw [show strJoin "\n" (t :: t2 :: rr)
              = (t ++ "\n") ++ strJoin "\n" (t2 :: rr) from rfl,
            data_append, hd, List.append_assoc]

theorem goTrim_block (T : List String) (hT : T ≠ []) (k : Nat)
    (hh : ∃ d, (strJoin "\n" T).data = '|' :: d)
    (hl : ∃ d, (strJoin "\n" T).data = d ++ ['|']) :
    goTrim (strJoin "\n" (T ++ List.replicate k "")) = strJoin "\n" T := by
  have h2 : strJoin "\n" (T ++ List.replicate k "")
      = ⟨(strJoin "\n" T).data ++ List.replicate k '\n'⟩ :=
    str_ext _ _ (strJoin_newline_trailing T hT k)
  rw [h2]
  exact goTrim_pipes_newlines (strJoin "\n" T) k hh hl

theorem tableLines_head_pipe (s : SheetData) :
    ∀ t ∈ tableLinesOf s, ∃ d, t.data = '|' :: d := by
  intro t ht
  simp only [tableLinesOf, List.mem_cons] at ht
  rcases ht with rfl | rfl | ht
  · exact rowLineStr_head _
  · exact sepLineStr_head _
  · rcases List.mem_map.1 ht with ⟨row, _, rfl⟩
    exact rowLineStr_head _

theorem tableLines_last_pipe (s : SheetData) :
    ∀ t ∈ tableLinesOf s, ∃ d, t.data = d ++ ['|'] := by
  intro t ht
  simp only [tableLinesOf, List.mem_cons] at ht
  rcases ht with rfl | rfl | ht
  · exact rowLineStr_last _
  · exact sepLineStr_last _
  · rcases List.mem_map.1 ht with ⟨row, _, rfl⟩
    exact rowLineStr_last _

theorem rowLineStr_no_newline (cells : List String) (h : ∀ v ∈ cells, '\n' ∉ v.data) :
    '\n' ∉ (rowLineStr cells).data := by
  rw [rowLineStr_data]
  intro hm
  rcases List.mem_append.1 hm with h1 | h2
  · rcases List.mem_append.1 h1 with h3 | h4
    · simp at h3
    · exact mem_data_strJoin '\n' " | " cells (by decide) h h4
  · simp at h2

theorem sepLineStr_no_newline (n : Nat) : '\n' ∉ (sepLineStr n).data := by
  rw [sepLineStr_data]
  intro hm
  rcases List.mem_cons.1 hm with h1 | h2
  · exact absurd h1 (by decide)
  · exact mem_data_strRep '\n' " --- |" n (by decide) h2

theorem tableLines_no_newline (s : SheetData)
    (hnl : ∀ row ∈ s.rows, ∀ v ∈ row, '\n' ∉ v.data) :
    ∀ t ∈ tableLinesOf s, '\n' ∉ t.data := by
  have hpad : ∀ row ∈ s.rows, ∀ v ∈ padTo (colCountOf s.rows) row, '\n' ∉ v.data := by
    intro row hrow v hv
    rcases mem_padTo _ _ _ hv with h1 | h2
    · exact hnl row hrow v h1
    · rw [h2]
      decide
  intro t ht
  simp only [tableLinesOf, List.mem_cons] at ht
  rcases ht with rfl | rfl | ht
  · apply rowLineStr_no_newline
    intro v hv
    cases hx : s.rows with
    | nil => rw [hx] at hv; simp at hv
    | cons r rs =>
        have hh : (s.rows.map (padTo (colCountOf s.rows))).headD []
            = padTo (colCountOf s.rows) r := by
          rw [hx]
          simp
        rw [hh] at hv
        exact hpad r (by rw [hx]; simp) v hv
  · exact sepLineStr_no_newline _
  · rcases List.mem_map.1 ht with ⟨p, hp, rfl⟩
    apply rowLineStr_no_newline
    intro v hv
    have hp2 : p ∈ s.rows.map (padTo (colCountOf s.rows)) := List.mem_of_mem_drop hp
    rcases List.mem_map.1 hp2 with ⟨row, hrow, rfl⟩
    exact hpad row hrow v hv

theorem strSplit_tableLines (s : SheetData)
    (hnl : ∀ row ∈ s.rows, ∀ v ∈ row, '\n' ∉ v.data) :
    strSplit '\n' (strJoin "\n" (tableLinesOf s)) = tableLinesOf s := by
  have hnl2 := tableLines_no_newline s hnl
  have hne : tableLinesOf s ≠ [] := by rw [tableLinesOf]; simp
  have h := strSplit_strJoin '\n' (tableLinesOf s) hne hnl2
  rwa [show (⟨['\n']⟩ : String) = "\n" from by decide] at h

/-! ### Recovering the heading blocks of the emitted document -/

/-- The full line list of one sheet's Markdown: heading, blank line, table
lines, trailing blank line. -/
def sheetLines (s : SheetData) : List String :=
  ("## " ++ s.name) :: "" :: (tableLinesOf s ++ [""])

/-- Cell strings that survive the reader's trimming and splitting untouched. -/
def cellOk (v : String) : Prop :=
  goTrim v = v ∧ '|' ∉ v.data ∧ '\n' ∉ v.data

/-- Sheets whose Markdown rendering the reader can reconstruct: at least one
row and one column, a trim-invariant non-empty name free of newlines and
slashes, reader-invariant cells, and no row that the reader would mistake for
a separator row. -/
def sheetOk (s : SheetData) : Prop :=
  s.rows ≠ [] ∧ 0 < colCountOf s.rows ∧ goTrim s.name = s.name ∧ s.name ≠ "" ∧
    '\n' ∉ s.name.data ∧ '/' ∉ s.name.data ∧
    (∀ row ∈ s.rows, ∀ v ∈ row, cellOk v) ∧
    (∀ row ∈ s.rows, isSeparatorRow (padTo (colCountOf s.rows) row) = false)

theorem isPrefixOf_append_self : ∀ p s : List Char, p.isPrefixOf (p ++ s) = true := by
  intro p s
  induction p with
  | nil => simp [List.isPrefixOf]
  | cons a r ih => simp [List.isPrefixOf, List.cons_append, ih]

theorem hasPref_heading (name : String) : hasPref "## " ("## " ++ name) = true := by
  rw [hasPref, data_append]
  exact isPrefixOf_append_self _ _

theorem hasPref_hash_of_pipe (l : String) (h : ∃ d, l.data = '|' :: d) :
    hasPref "## " l = false := by
  obtain ⟨d, hd⟩ := h
  rw [hasPref, hd]
  have h2 : ("## " : String).data = ['#', '#', ' '] := by decide
  rw [h2]
  show (('#' == '|') && List.isPrefixOf ['#', ' '] d) = false
  rw [show ('#' == '|') = false from by decide]
  rfl

theorem hasPref_hash_empty : hasPref "## " "" = false := by decide

theorem findBlocks_cons_nonheading (l : String) (h : hasPref "## " l = false) :
    ∀ ls : List String,
      findBlocks (l :: ls) = (l :: (findBlocks ls).1, (findBlocks ls).2) := by
  intro ls
  cases ls with
  | nil => rfl
  | cons l2 rest =>
      rw [findBlocks, h]
      simp

theorem findBlocks_append_nonheading (pre : List String)
    (h : ∀ l ∈ pre, hasPref "## " l = false) : ∀ ls : List String,
    findBlocks (pre ++ ls) = (pre ++ (findBlocks ls).1, (findBlocks ls).2) := by
  induction pre with
  | nil => intro ls; simp
  | cons p pr ih =>
      intro ls
      rw [List.cons_append, findBlocks_cons_nonheading p (h p (by simp)) (pr ++ ls),
        ih (fun l hl => h l (by simp [hl])) ls]
      simp

theorem findBlocks_heading (name : String) (hname : name ≠ "") (rest : List String)
    (hrest : rest ≠ []) :
    findBlocks (("## " ++ name) :: "" :: rest)
      = ([], (name, (findBlocks rest).1) :: (findBlocks rest).2) := by
  have hlen : 3 < ("## " ++ name).length := by
    rw [string_length_data, data_append]
    have h3 : ("## " : String).data.length = 3 := by decide
    rw [List.length_append, h3]
    have hne : name.data ≠ [] := by
      intro hq
      exact hname (str_ext name "" (by rw [hq]))
    cases hx : name.data with
    | nil => exact absurd hx hne
    | cons a l => simp
  have hre : rest.isEmpty = false := by
    cases rest with
    | nil => exact absurd rfl hrest
    | cons a l => rfl
  have hdrop : (⟨("## " ++ name).data.drop 3⟩ : String) = name := by
    apply str_ext
    show (("## " ++ name).data.drop 3) = name.data
    rw [data_append, show ("## " : String).data = ['#', '#', ' '] from by decide]
    rfl
  rw [findBlocks, hasPref_heading name, decide_eq_true hlen, hre,
    if_pos (by decide), hdrop]

/-- The heading blocks recovered from the emitted document: each sheet's table
lines followed by the blank lines up to the next heading (or end of text). -/
def blocksOf : List SheetData → List (String × List String)
  | [] => []
  | [s] => [(s.name, tableLinesOf s ++ List.replicate 2 "")]
  | s :: s2 :: rest =>
    (s.name, tableLinesOf s ++ List.replicate 1 "") :: blocksOf (s2 :: rest)

theorem tableLines_nonheading (s : SheetData) :
    ∀ l ∈ tableLinesOf s ++ [""], hasPref "## " l = false := by
  intro l hl
  rcases List.mem_append.1 hl with h1 | h2
  · exact hasPref_hash_of_pipe l (tableLines_head_pipe s l h1)
  · simp at h2
    rw [h2]
    exact hasPref_hash_empty

theorem findBlocks_doc : ∀ sheets : List SheetData, (∀ s ∈ sheets, s.name ≠ "") →
    sheets ≠ [] →
    findBlocks ((sheets.map sheetLines).flatten ++ [""]) = ([], blocksOf sheets) := by
  intro sheets
  induction sheets with
  | nil => intro _ h; exact absurd rfl h
  | cons s ss ih =>
      intro hn _
      rw [List.map_cons, List.flatten_cons, List.append_assoc]
      rw [show sheetLines s ++ ((ss.map sheetLines).flatten ++ [""])
          = ("## " ++ s.name) :: ""
              :: ((tableLinesOf s ++ [""]) ++ ((ss.map sheetLines).flatten ++ [""]))
          from by
        rw [sheetLines]
        simp [List.append_assoc]]
      rw [findBlocks_heading s.name (hn s (by simp)) _ (by
        rw [tableLinesOf]
        simp)]
      rw [findBlocks_append_nonheading (tableLinesOf s ++ [""])
        (tableLines_nonheading s)]
      cases ss with
      | nil =>
          simp only [List.map_nil, List.flatten_nil, List.nil_append]
          rw [show findBlocks [""] = ([""], []) from rfl, blocksOf]
          simp [List.append_assoc, List.replicate]
      | cons s2 rest2 =>
          rw [ih (fun x hx => hn x (by simp [hx])) (by simp)]
          rw [blocksOf]
          simp [List.replicate]

/-! ### Processing the recovered blocks -/

theorem replaceSlash_id (s : String) (h : '/' ∉ s.data) : replaceSlash s = s := by
  rw [replaceSlash]
  apply str_ext
  show s.data.map (fun c => if c = '/' then '-' else c) = s.data
  rw [show s.data.map (fun c => if c = '/' then '-' else c) = s.data.map id from
    List.map_congr_left (fun c hc => by
      show (if c = '/' then '-' else c) = c
      rw [if_neg]
      intro hq
      exact h (hq ▸ hc)), List.map_id]

theorem block_content (s : SheetData) (hs : sheetOk s) (k : Nat) :
    goTrim (strJoin "\n" (tableLinesOf s ++ List.replicate k ""))
        = strJoin "\n" (tableLinesOf s)
      ∧ strJoin "\n" (tableLinesOf s) ≠ ""
      ∧ parseTable (strJoin "\n" (tableLinesOf s))
          = some (s.rows.map (padTo (colCountOf s.rows))) := by
  obtain ⟨hrows, hcc, hnm, hnm2, hnl, hsl, hcells, hsep⟩ := hs
  have hne : tableLinesOf s ≠ [] := by rw [tableLinesOf]; simp
  have hh := strJoin_head_pipe (tableLinesOf s) hne (tableLines_head_pipe s)
  have hl := strJoin_last_pipe (tableLinesOf s) hne (tableLines_last_pipe s)
  refine ⟨goTrim_block _ hne k hh hl, ?_, ?_⟩
  · intro hq
    obtain ⟨d, hd⟩ := hh
    rw [hq] at hd
    simp at hd
  · rw [parseTable,
      strSplit_tableLines s (fun row hrow v hv => ((hcells row hrow v hv).2).2)]
    exact parseTableGo_tableLines s hrows hcc
      (fun row hrow v hv =>
        ⟨(hcells row hrow v hv).1, ((hcells row hrow v hv).2).1⟩) hsep

theorem padded_not_isEmpty (s : SheetData) (hrows : s.rows ≠ []) :
    (s.rows.map (padTo (colCountOf s.rows))).isEmpty = false := by
  cases hx : s.rows with
  | nil => exact absurd hx hrows
  | cons r rs => rfl

theorem processBlocks_blocksOf : ∀ sheets : List SheetData,
    (∀ s ∈ sheets, sheetOk s) →
    processBlocks (blocksOf sheets)
      = some (sheets.map (fun s =>
          SheetData.mk s.name (s.rows.map (padTo (colCountOf s.rows))))) := by
  intro sheets
  induction sheets with
  | nil => intro _; rfl
  | cons s ss ih =>
      intro h
      obtain ⟨hrows, hcc, hnm, hnm2, hnl, hsl, hcells, hsep⟩ := h s (by simp)
      have hname : replaceSlash (goTrim s.name) = s.name := by
        rw [hnm, replaceSlash_id s.name hsl]
      have hpe := padded_not_isEmpty s hrows
      cases ss with
      | nil =>
          obtain ⟨hJ, hJne, hPT⟩ := block_content s (h s (by simp)) 2
          rw [blocksOf, processBlocks, hJ, if_neg hJne, hPT]
          rw [show processBlocks [] = some [] from rfl]
          simp only [Option.bind_eq_bind, Option.some_bind]
          rw [hpe, hname]
          rfl
      | cons s2 rest2 =>
          obtain ⟨hJ, hJne, hPT⟩ := block_content s (h s (by simp)) 1
          rw [blocksOf, processBlocks, hJ, if_neg hJne, hPT,
            ih (fun x hx => h x (by simp [hx]))]
          simp only [Option.bind_eq_bind, Option.some_bind]
          rw [hpe, hname]
          rfl

/-! ### The emitted document, line by line -/

theorem sheetMd_data (s : SheetData) (h : s.rows ≠ []) :
    (sheetMd s).data = ((sheetLines s).map (fun l => l.data ++ ['\n'])).flatten := by
  rw [sheetMd, if_neg h, sheetLines, tableLinesOf]
  simp [data_append, data_join, mdRowLine_eq, mdSepLine_eq, List.map_map,
    Function.comp, List.append_assoc]
  have hfg : (String.data ∘ mdRowLine ∘ padTo (colCountOf s.rows))
      = ((fun l : String => l.data ++ ['\n']) ∘ rowLineStr ∘ padTo (colCountOf s.rows)) := by
    funext r
    show (mdRowLine (padTo (colCountOf s.rows) r)).data
        = (rowLineStr (padTo (colCountOf s.rows) r)).data ++ ['\n']
    rw [mdRowLine_eq, data_append]
  rw [hfg]

theorem toMarkdown_foldl (sheets : List SheetData) : ∀ a : String,
    sheets.foldl (fun acc sheet => acc ++ sheetMd sheet) a
      = a ++ sheets.foldl (fun acc sheet => acc ++ sheetMd sheet) "" := by
  induction sheets with
  | nil =>
      intro a
      rw [List.foldl_nil, List.foldl_nil, string_append_empty]
  | cons s ss ih =>
      intro a
      rw [List.foldl_cons, List.foldl_cons, ih (a ++ sheetMd s), ih ("" ++ sheetMd s),
        string_empty_append, string_append_assoc]

theorem toMarkdown_cons (s : SheetData) (ss : List SheetData) :
    toMarkdown (s :: ss) = sheetMd s ++ toMarkdown ss := by
  rw [toMarkdown, List.foldl_cons, toMarkdown_foldl ss ("" ++ sheetMd s),
    string_empty_append, toMarkdown]

theorem toMarkdown_data : ∀ sheets : List SheetData, (∀ s ∈ sheets, s.rows ≠ []) →
    (toMarkdown sheets).data
      = (((sheets.map sheetLines).flatten).map (fun l => l.data ++ ['\n'])).flatten := by
  intro sheets
  induction sheets with
  | nil => intro _; rfl
  | cons s ss ih =>
      intro h
      rw [toMarkdown_cons, data_append, sheetMd_data s (h s (by simp)),
        ih (fun x hx => h x (by simp [hx]))]
      simp [List.flatten_append]

theorem splitLC_unlines : ∀ L : List (List Char), (∀ l ∈ L, '\n' ∉ l) →
    splitLC '\n' ((L.map (fun l => l ++ ['\n'])).flatten) = L ++ [[]] := by
  intro L
  induction L with
  | nil => intro _; rfl
  | cons w ws ih =>
      intro h
      rw [List.map_cons, List.flatten_cons]
      rw [show (w ++ ['\n']) ++ (List.map (fun l => l ++ ['\n']) ws).flatten
          = w ++ '\n' :: (List.map (fun l => l ++ ['\n']) ws).flatten from by
        simp [List.append_assoc]]
      rw [splitLC_append_sep '\n' w _ (h w (by simp)),
        ih (fun l hl => h l (by simp [hl]))]
      rfl

theorem sheetLines_no_newline (s : SheetData) (hnl : '\n' ∉ s.name.data)
    (hcells : ∀ row ∈ s.rows, ∀ v ∈ row, '\n' ∉ v.data) :
    ∀ l ∈ sheetLines s, '\n' ∉ l.data := by
  intro l hl
  rw [sheetLines] at hl
  simp only [List.mem_cons, List.mem_append] at hl
  rcases hl with rfl | rfl | hl | hl
  · rw [data_append]
    intro hm
    rcases List.mem_append.1 hm with h1 | h2
    · exact absurd h1 (by decide)
    · exact hnl h2
  · decide
  · exact tableLines_no_newline s hcells l hl
  · simp at hl
    rw [hl]
    decide

theorem strSplit_toMarkdown (sheets : List SheetData)
    (hrows : ∀ s ∈ sheets, s.rows ≠ [])
    (hnl : ∀ s ∈ sheets, ∀ l ∈ sheetLines s, '\n' ∉ l.data) :
    strSplit '\n' (toMarkdown sheets) = (sheets.map sheetLines).flatten ++ [""] := by
  rw [strSplit, toMarkdown_data sheets hrows]
  have hLC : ((sheets.map sheetLines).flatten.map (fun l => l.data ++ ['\n'])).flatten
      = (((sheets.map sheetLines).flatten.map String.data).map
          (fun l => l ++ ['\n'])).flatten := by
    rw [List.map_map]
    rfl
  rw [hLC, splitLC_unlines ((sheets.map sheetLines).flatten.map String.data)
    (by
      intro l hl
      rcases List.mem_map.1 hl with ⟨t, ht, rfl⟩
      rcases List.mem_flatten.1 ht with ⟨ls, hls, htl⟩
      rcases List.mem_map.1 hls with ⟨s, hsm, rfl⟩
      exact hnl s hsm t htl)]
  rw [List.map_append, List.map_map]
  rw [show (fun l => (⟨l⟩ : String)) ∘ String.data = id from by
    funext x
    cases x
    rfl]
  rw [List.map_id]
  rfl

instance (v : String) : Decidable (cellOk v) :=
  decidable_of_iff (goTrim v = v ∧ '|' ∉ v.data ∧ '\n' ∉ v.data) Iff.rfl

instance (s : SheetData) : Decidable (sheetOk s) :=
  decidable_of_iff
    (s.rows ≠ [] ∧ 0 < colCountOf s.rows ∧ goTrim s.name = s.name ∧ s.name ≠ "" ∧
      '\n' ∉ s.name.data ∧ '/' ∉ s.name.data ∧
      (∀ row ∈ s.rows, ∀ v ∈ row, cellOk v) ∧
      (∀ row ∈ s.rows, isSeparatorRow (padTo (colCountOf s.rows) row) = false))
    Iff.rfl

theorem blocksOf_not_isEmpty (s : SheetData) (ss : List SheetData) :
    (blocksOf (s :: ss)).isEmpty = false := by
  cases ss with
  | nil => rfl
  | cons s2 r => rfl

/-- C6 (amended): the Markdown round trip holds for sheet lists whose sheets the
reader can faithfully reconstruct — each sheet has at least one row and one
column, a trim-invariant non-empty name without `\n` or `/`, cells that survive
trimming and pipe-splitting unchanged, and no row that the parser would discard
as a separator row.  Reading back `ToMarkdown`'s output then yields exactly the
original sheets with every row padded to its sheet's column count.  (As stated
over all sheet lists the claim is false: see the counterexample theorem.) -/
theorem C6_markdown_round_trip (sheets : List SheetData)
    (h : ∀ s ∈ sheets, sheetOk s) :
    readMarkdown (toMarkdown sheets)
      = some (sheets.map (fun s =>
          SheetData.mk s.name (s.rows.map (padTo (colCountOf s.rows))))) := by
  cases sheets with
  | nil => decide
  | cons s ss =>
      rw [readMarkdown,
        strSplit_toMarkdown (s :: ss)
          (fun x hx => (h x hx).1)
          (fun x hx => sheetLines_no_newline x ((h x hx).2.2.2.2.1)
            (fun row hrow v hv => ((h x hx).2.2.2.2.2.2.1 row hrow v hv).2.2)),
        findBlocks_doc (s :: ss) (fun x hx => (h x hx).2.2.2.1) (by simp),
        if_neg (by simp [blocksOf_not_isEmpty s ss])]
      exact processBlocks_blocksOf (s :: ss) h

theorem C6_markdown_round_trip_witness :
    (∀ s ∈ [SheetData.mk "A" [["x"]]], sheetOk s) ∧
    readMarkdown (toMarkdown [SheetData.mk "A" [["x"]]])
      = some ([SheetData.mk "A" [["x"]]].map (fun s =>
          SheetData.mk s.name (s.rows.map (padTo (colCountOf s.rows))))) :=
  ⟨by decide, C6_markdown_round_trip [SheetData.mk "A" [["x"]]] (by decide)⟩

end Xlmd
